import Mathlib

/-!
Verification of the Local-Flix media-library core (src/4.1.py) against its
natural-language specification.

The Python source is shallowly embedded: strings are `List Char`, the regular
expressions of the source are hand-translated into deterministic matchers
(each translation is justified in a comment at the definition), the on-disk
metadata cache is a key-indexed store, and the filesystem entries seen by the
scanners are passed in explicitly.  Character classes (`\s`, `\d`, `\w`,
lower-casing) are modelled on the ASCII range, which is the range exercised by
the recognized extensions, the release-quality tags and the season/episode
patterns of the source.
-/

namespace LocalFlix

/-- Python `\s` (and `str.strip` / `str.isspace`) on the ASCII range:
space, tab, newline, carriage return, vertical tab, form feed. -/
def pyIsSpace (c : Char) : Bool :=
  c = ' ' || c = '\t' || c = '\n' || c = '\r' || c = Char.ofNat 11 || c = Char.ofNat 12

/-- Python regex `\w` on the ASCII range: letters, digits and underscore. -/
def isWord (c : Char) : Bool :=
  c.isAlphanum || c = '_'

/-- Python `str.lower` on the ASCII range, written as an explicit table so
that facts about it reduce by case analysis. -/
def pyLowerChar (c : Char) : Char :=
  if c = 'A' then 'a' else if c = 'B' then 'b' else if c = 'C' then 'c'
  else if c = 'D' then 'd' else if c = 'E' then 'e' else if c = 'F' then 'f'
  else if c = 'G' then 'g' else if c = 'H' then 'h' else if c = 'I' then 'i'
  else if c = 'J' then 'j' else if c = 'K' then 'k' else if c = 'L' then 'l'
  else if c = 'M' then 'm' else if c = 'N' then 'n' else if c = 'O' then 'o'
  else if c = 'P' then 'p' else if c = 'Q' then 'q' else if c = 'R' then 'r'
  else if c = 'S' then 's' else if c = 'T' then 't' else if c = 'U' then 'u'
  else if c = 'V' then 'v' else if c = 'W' then 'w' else if c = 'X' then 'x'
  else if c = 'Y' then 'y' else if c = 'Z' then 'z' else c

/-- Python `str.lower` mapped over a string. -/
def pyLower (l : List Char) : List Char := l.map pyLowerChar

/-- Value of a decimal digit character. -/
def digitVal (c : Char) : Nat := c.toNat - 48

/-- Python `int` on a (non-empty) list of decimal digits; leading zeros are
allowed, `int("01") = 1`. -/
def digitsVal (l : List Char) : Nat := l.foldl (fun a c => 10 * a + digitVal c) 0

/-- Python `str.strip()`: drop whitespace from both ends. -/
def pyStrip (l : List Char) : List Char :=
  ((l.dropWhile pyIsSpace).reverse.dropWhile pyIsSpace).reverse

/-- Python `os.path.splitext` (posix): split off the extension at the last
dot of the last path component, unless the component consists of leading dots
only.  Implemented by scanning the reversed string: the reversed extension is
the run of characters before the first `.` or `/`; the split happens only when
that run is closed by a `.` and the remaining basename characters are not all
dots. -/
def splitextList (p : List Char) : List Char × List Char :=
  let r := p.reverse
  let pre := r.takeWhile (fun c => !(c = '.' || c = '/'))
  match r.dropWhile (fun c => !(c = '.' || c = '/')) with
  | c :: rest1 =>
    if c = '.' then
      if (rest1.takeWhile (fun d => !(d = '/'))).any (fun d => !(d = '.')) then
        (rest1.reverse, '.' :: pre.reverse)
      else (p, [])
    else (p, [])
  | [] => (p, [])

/-- Python `os.path.basename` (posix): the part after the last `/`. -/
def pyBasename (p : List Char) : List Char :=
  (p.reverse.takeWhile (fun c => !(c = '/'))).reverse

/-- Python `os.path.join(d, n)` restricted to the shapes the scanners build:
a non-absolute `n` is appended to `d` with a single separator. -/
def joinPath (d n : List Char) : List Char :=
  if n.head? = some '/' then n
  else if d = [] then n
  else if d.getLast? = some '/' then d ++ n
  else d ++ '/' :: n

/-- Python `str.endswith(tuple)`: some element of the tuple is a suffix. -/
def endsWithAny (name : List Char) (exts : List (List Char)) : Bool :=
  exts.any (fun e => e.isSuffixOf name)

example : pyStrip " a b ".toList = "a b".toList := by decide
example : splitextList "a.b.c".toList = ("a.b".toList, ".c".toList) := by decide
example : splitextList ".bashrc".toList = (".bashrc".toList, "".toList) := by decide
example : splitextList "x/.b".toList = ("x/.b".toList, "".toList) := by decide
example : splitextList "a..b".toList = ("a.".toList, ".b".toList) := by decide
example : splitextList "noext".toList = ("noext".toList, "".toList) := by decide
example : pyBasename "a/b/c.mkv".toList = "c.mkv".toList := by decide
example : digitsVal "07".toList = 7 := by decide

/-! ### Filename Parser (src/4.1.py, `parse_filename`, lines 81-89)

The source matches `re.match(r"[Ss](\d{1,2})[Ee](\d{1,2})\s*-\s*(.*)", name)`.
The greedy quantifiers of this regex are deterministic: after `(\d{1,2})` the
continuation starts with `[Ee]` (resp. `\s*-`), which never accepts a digit,
so taking a second digit exactly when one is present agrees with greedy
matching with backtracking; `\s*` is followed by `-` (never a whitespace
char) resp. by `(.*)` (which accepts anything), so skipping the maximal
whitespace run agrees with backtracking; `(.*)` matches greedily up to the
first newline, since `.` does not match `\n`. -/

/-- One or two decimal digits, as matched by a greedy `(\d{1,2})` whose
continuation does not accept a digit. -/
def grabDigits : List Char → Option (Nat × List Char)
  | [] => none
  | [c] => if c.isDigit then some (digitVal c, []) else none
  | c :: d :: t =>
    if c.isDigit then
      if d.isDigit then some (10 * digitVal c + digitVal d, t)
      else some (digitVal c, d :: t)
    else none

/-- The tail `\s*-\s*(.*)` of the source pattern: skip whitespace, require a
hyphen, skip whitespace, capture up to the first newline. -/
def matchTail (l : List Char) : Option (List Char) :=
  let l1 := l.dropWhile pyIsSpace
  if l1.head? = some '-' then
    some ((l1.tail.dropWhile pyIsSpace).takeWhile (fun x => !(x = '\n')))
  else none

/-- The full pattern `[Ss](\d{1,2})[Ee](\d{1,2})\s*-\s*(.*)` anchored at the
start (`re.match`); returns season, episode and the raw captured title. -/
def matchSE : List Char → Option (Nat × Nat × List Char)
  | [] => none
  | c1 :: t1 =>
    if c1 = 'S' || c1 = 's' then
      match grabDigits t1 with
      | some (s, c2 :: t3) =>
        if c2 = 'E' || c2 = 'e' then
          match grabDigits t3 with
          | some (e, t4) =>
            match matchTail t4 with
            | some title => some (s, e, title)
            | none => none
          | none => none
        else none
      | _ => none
    else none

/-- Embedding of `parse_filename` (lines 81-89): strip the extension, match
the pattern; on a match return the integers and the stripped title, otherwise
`(1, 0, stem)`. -/
def parse_filename (filename : List Char) : Nat × Nat × List Char :=
  let name := (splitextList filename).1
  match matchSE name with
  | some (s, e, title) => (s, e, pyStrip title)
  | none => (1, 0, name)

/-! ### Secondary episode-number extraction (`parse_episode_number`, lines 125-134)

The source runs `re.search(r"[Ss]\d{1,2}[Ee](\d{1,2})", name)`: the same
pattern without anchoring and capturing only the episode digits.  `re.search`
tries each start position from the left; the determinism argument for the
quantifiers is as for `matchSE` (the continuation of the season digits is
`[Ee]`, and the episode digits are final, so plain greedy capture agrees with
backtracking). -/

/-- Attempt of the pattern `[Ss]\d{1,2}[Ee](\d{1,2})` at the current
position. -/
def epHere : List Char → Option Nat
  | [] => none
  | c1 :: t1 =>
    if c1 = 'S' || c1 = 's' then
      match grabDigits t1 with
      | some (_, c2 :: t3) =>
        if c2 = 'E' || c2 = 'e' then
          match grabDigits t3 with
          | some (e, _) => some e
          | none => none
        else none
      | _ => none
    else none

/-- Leftmost match of the unanchored search. -/
def searchEp : List Char → Option Nat
  | [] => none
  | c :: t =>
    match epHere (c :: t) with
    | some e => some e
    | none => searchEp t

/-- Embedding of `parse_episode_number` (lines 125-134): episode number of
the leftmost `SxxExx` occurrence, defaulting to 0. -/
def parse_episode_number (name : List Char) : Nat :=
  (searchEp name).getD 0

example : parse_filename "S01E02 - Beta.mkv".toList = (1, 2, "Beta".toList) := by decide
example : parse_filename "s3e12- The End.avi".toList = (3, 12, "The End".toList) := by decide
example : parse_filename "Alpha.mkv".toList = (1, 0, "Alpha".toList) := by decide
example : parse_filename "S123E4 - x.mkv".toList = (1, 0, "S123E4 - x".toList) := by decide
example : parse_filename "S01E01 - a\nb".toList = (1, 1, "a".toList) := by decide
example : parse_episode_number "S01E02 - Beta".toList = 2 := by decide
example : parse_episode_number "Beta".toList = 0 := by decide
example : parse_episode_number "xxS1E23yy".toList = 23 := by decide

/-! ### Generic list lemmas used throughout -/

theorem dropWhile_append_all {p : Char → Bool} {ws l : List Char}
    (h : ∀ c ∈ ws, p c = true) :
    (ws ++ l).dropWhile p = l.dropWhile p := by
  induction ws with
  | nil => rfl
  | cons c t ih =>
    simp only [List.cons_append, List.dropWhile_cons, h c (by simp)]
    exact ih (fun d hd => h d (by simp [hd]))

theorem dropWhile_self_idem (p : Char → Bool) (l : List Char) :
    (l.dropWhile p).dropWhile p = l.dropWhile p := by
  induction l with
  | nil => rfl
  | cons c t ih =>
    by_cases hc : p c = true
    · simp only [List.dropWhile_cons, hc, if_true]; exact ih
    · simp only [List.dropWhile_cons, hc]; simp [hc]

theorem takeWhile_all {p : Char → Bool} {l : List Char}
    (h : ∀ c ∈ l, p c = true) : l.takeWhile p = l := by
  induction l with
  | nil => rfl
  | cons c t ih =>
    simp only [List.takeWhile_cons, h c (by simp), if_true]
    rw [ih (fun d hd => h d (by simp [hd]))]

theorem mem_of_mem_dropWhile {p : Char → Bool} {l : List Char} {x : Char}
    (h : x ∈ l.dropWhile p) : x ∈ l := by
  induction l with
  | nil => simp [List.dropWhile] at h
  | cons c t ih =>
    by_cases hc : p c = true
    · simp only [List.dropWhile_cons, hc, if_true] at h
      exact List.mem_cons_of_mem _ (ih h)
    · simp only [List.dropWhile_cons, hc] at h
      simpa using h

theorem mem_of_mem_takeWhile {p : Char → Bool} {l : List Char} {x : Char}
    (h : x ∈ l.takeWhile p) : x ∈ l := by
  induction l with
  | nil => simp [List.takeWhile] at h
  | cons c t ih =>
    by_cases hc : p c = true
    · simp only [List.takeWhile_cons, hc, if_true] at h
      rcases List.mem_cons.mp h with h | h
      · simp [h]
      · exact List.mem_cons_of_mem _ (ih h)
    · simp only [List.takeWhile_cons, hc] at h
      simp at h

theorem all_takeWhile {p : Char → Bool} {l : List Char} {x : Char}
    (h : x ∈ l.takeWhile p) : p x = true := by
  induction l with
  | nil => simp [List.takeWhile] at h
  | cons c t ih =>
    by_cases hc : p c = true
    · simp only [List.takeWhile_cons, hc, if_true] at h
      rcases List.mem_cons.mp h with h | h
      · rwa [h]
      · exact ih h
    · simp only [List.takeWhile_cons, hc] at h
      simp at h

theorem pyStrip_dropWhile (l : List Char) :
    pyStrip (l.dropWhile pyIsSpace) = pyStrip l := by
  simp [pyStrip, dropWhile_self_idem]

theorem not_digit_of_space {c : Char} (h : pyIsSpace c = true) :
    c.isDigit = false := by
  simp only [pyIsSpace, Bool.or_eq_true, decide_eq_true_eq] at h
  rcases h with ((((h | h) | h) | h) | h) | h <;> subst h <;> decide

/-! ### Claim C1: specification-side pattern

`SpecDecomp stem s e rest` is the decomposition the specification sentence
describes: the stem is `S`/`s`, one or two digits valued `s`, `E`/`e`, one or
two digits valued `e`, optional whitespace, a hyphen, optional whitespace,
then the remainder `rest`. -/

def SpecDecomp (stem : List Char) (s e : Nat) (rest : List Char) : Prop :=
  ∃ c1 ds c2 es ws1 ws2,
    stem = c1 :: (ds ++ c2 :: (es ++ ws1 ++ '-' :: (ws2 ++ rest))) ∧
    (c1 = 'S' ∨ c1 = 's') ∧ (c2 = 'E' ∨ c2 = 'e') ∧
    ds ≠ [] ∧ ds.length ≤ 2 ∧ (∀ c ∈ ds, c.isDigit = true) ∧
    es ≠ [] ∧ es.length ≤ 2 ∧ (∀ c ∈ es, c.isDigit = true) ∧
    (∀ c ∈ ws1, pyIsSpace c = true) ∧ (∀ c ∈ ws2, pyIsSpace c = true) ∧
    s = digitsVal ds ∧ e = digitsVal es

theorem matchSE_of_decomp {stem : List Char} {s e : Nat} {rest : List Char}
    (hnl : '\n' ∉ stem) (hd : SpecDecomp stem s e rest) :
    ∃ t0, matchSE stem = some (s, e, t0) ∧ pyStrip t0 = pyStrip rest := by
  obtain ⟨c1, ds, c2, es, ws1, ws2, heq, hc1, hc2, hds0, hds2, hdsD,
    hes0, hes2, hesD, hws1, hws2, hs, he⟩ := hd
  have hc1b : (c1 = 'S' || c1 = 's') = true := by
    rcases hc1 with h | h <;> simp [h]
  have hc2b : (c2 = 'E' || c2 = 'e') = true := by
    rcases hc2 with h | h <;> simp [h]
  have hc2d : c2.isDigit = false := by
    rcases hc2 with h | h <;> subst h <;> decide
  have hdashd : ('-' : Char).isDigit = false := by decide
  have hdashs : pyIsSpace '-' = false := by decide
  -- no newline after the hyphen
  have hnlrest : ∀ x ∈ rest.dropWhile pyIsSpace, (!(x = '\n')) = true := by
    intro x hx
    have hxr : x ∈ rest := mem_of_mem_dropWhile hx
    simp only [Bool.not_eq_true', decide_eq_false_iff_not]
    intro hxe; subst hxe
    apply hnl
    rw [heq]; simp [hxr]
  have htake : (rest.dropWhile pyIsSpace).takeWhile (fun x => !(x = '\n')) =
      rest.dropWhile pyIsSpace := takeWhile_all hnlrest
  -- the `\s*-\s*(.*)` tail evaluates on the decomposed list
  have htail : matchTail (ws1 ++ '-' :: (ws2 ++ rest)) =
      some (rest.dropWhile pyIsSpace) := by
    unfold matchTail
    rw [dropWhile_append_all hws1]
    rw [List.dropWhile_cons, hdashs]
    simp only [Bool.false_eq_true, if_false, List.head?_cons, List.tail_cons,
      Option.some.injEq]
    rw [if_pos trivial, dropWhile_append_all hws2, htake]
  -- the episode digits
  have hepis : grabDigits (es ++ (ws1 ++ '-' :: (ws2 ++ rest))) =
      some (digitsVal es, ws1 ++ '-' :: (ws2 ++ rest)) := by
    rcases es with _ | ⟨e1, _ | ⟨e2, estl⟩⟩
    · exact absurd rfl hes0
    · have he1 : e1.isDigit = true := hesD e1 (by simp)
      rcases ws1 with _ | ⟨w, ws1'⟩
      · simp [grabDigits, he1, hdashd, digitsVal]
      · have hwsp : pyIsSpace w = true := hws1 w (by simp)
        simp [grabDigits, he1, not_digit_of_space hwsp, digitsVal]
    · rcases estl with _ | _
      · have he1 : e1.isDigit = true := hesD e1 (by simp)
        have he2 : e2.isDigit = true := hesD e2 (by simp)
        simp [grabDigits, he1, he2, digitsVal]
      · exfalso; simp [List.length_cons] at hes2
  -- the season digits
  have hseas : grabDigits (ds ++ c2 :: (es ++ (ws1 ++ '-' :: (ws2 ++ rest)))) =
      some (digitsVal ds, c2 :: (es ++ (ws1 ++ '-' :: (ws2 ++ rest)))) := by
    rcases ds with _ | ⟨d1, _ | ⟨d2, dstl⟩⟩
    · exact absurd rfl hds0
    · have hd1 : d1.isDigit = true := hdsD d1 (by simp)
      simp [grabDigits, hd1, hc2d, digitsVal]
    · rcases dstl with _ | _
      · have hd1 : d1.isDigit = true := hdsD d1 (by simp)
        have hd2 : d2.isDigit = true := hdsD d2 (by simp)
        simp [grabDigits, hd1, hd2, digitsVal]
      · exfalso; simp [List.length_cons] at hds2
  refine ⟨rest.dropWhile pyIsSpace, ?_, pyStrip_dropWhile rest⟩
  subst heq hs he
  simp [matchSE, hc1b, hseas, hc2b, hepis, htail]

theorem grabDigits_inv {l t : List Char} {n : Nat}
    (h : grabDigits l = some (n, t)) :
    ∃ ds, l = ds ++ t ∧ ds ≠ [] ∧ ds.length ≤ 2 ∧
      (∀ c ∈ ds, c.isDigit = true) ∧ digitsVal ds = n := by
  match l with
  | [] => simp [grabDigits] at h
  | [c] =>
    by_cases hc : c.isDigit = true
    · simp [grabDigits, hc] at h
      exact ⟨[c], by simp [h.2], by simp, by simp, by simp [hc],
        by simp [digitsVal, h.1]⟩
    · simp [grabDigits, hc] at h
  | c :: d :: t' =>
    by_cases hc : c.isDigit = true
    · by_cases hd : d.isDigit = true
      · simp [grabDigits, hc, hd] at h
        exact ⟨[c, d], by simp [h.2], by simp, by simp,
          by simp [hc, hd], by simp [digitsVal, h.1]⟩
      · simp [grabDigits, hc, hd] at h
        exact ⟨[c], by simp [h.2], by simp, by simp, by simp [hc],
          by simp [digitsVal, h.1]⟩
    · simp [grabDigits, hc] at h

theorem matchTail_inv {l ttl : List Char} (h : matchTail l = some ttl) :
    ∃ ws1 t5, l = ws1 ++ '-' :: t5 ∧ (∀ c ∈ ws1, pyIsSpace c = true) := by
  unfold matchTail at h
  cases hdw : l.dropWhile pyIsSpace with
  | nil => rw [hdw] at h; simp at h
  | cons c t =>
    rw [hdw] at h
    by_cases hc : c = '-'
    · subst hc
      refine ⟨l.takeWhile pyIsSpace, t, ?_, fun x hx => all_takeWhile hx⟩
      conv_lhs => rw [← List.takeWhile_append_dropWhile (p := pyIsSpace) (l := l)]
      rw [hdw]
    · simp [hc] at h

theorem matchSE_inv {stem : List Char} {s e : Nat} {ttl : List Char}
    (h : matchSE stem = some (s, e, ttl)) :
    ∃ rest, SpecDecomp stem s e rest := by
  match stem with
  | [] => simp [matchSE] at h
  | c1 :: t1 =>
    simp only [matchSE] at h
    split at h
    case isFalse => simp at h
    case isTrue hc1 =>
      split at h
      case h_2 => simp at h
      case h_1 sv c2 t3 hg1 =>
        split at h
        case isFalse => simp at h
        case isTrue hc2 =>
          split at h
          case h_2 => simp at h
          case h_1 ev t4 hg2 =>
            split at h
            case h_2 => simp at h
            case h_1 ttl' hmt =>
              simp only [Option.some.injEq, Prod.mk.injEq] at h
              obtain ⟨hsv, hev, _⟩ := h
              obtain ⟨ds, ht1, hds0, hds2, hdsD, hdsV⟩ := grabDigits_inv hg1
              obtain ⟨es, ht3, hes0, hes2, hesD, hesV⟩ := grabDigits_inv hg2
              obtain ⟨ws1, t5, ht4, hws1⟩ := matchTail_inv hmt
              refine ⟨t5, c1, ds, c2, es, ws1, [], ?_, ?_, ?_, hds0, hds2,
                hdsD, hes0, hes2, hesD, hws1, by simp, by omega, by omega⟩
              · rw [ht1, ht3, ht4]; simp
              · simpa using hc1
              · simpa using hc2

/-- Claim C1 (amended): on a stem admitting the specification's decomposition
and containing no newline, `parse_filename` returns the season and episode
values and the stripped remainder; on a stem admitting no decomposition it
returns season 1, episode 0 and the full stem. -/
theorem parse_filename_spec :
    (∀ (fname : List Char) (s e : Nat) (rest : List Char),
      '\n' ∉ (splitextList fname).1 →
      SpecDecomp (splitextList fname).1 s e rest →
      parse_filename fname = (s, e, pyStrip rest))
    ∧ (∀ fname : List Char,
      (∀ s e rest, ¬ SpecDecomp (splitextList fname).1 s e rest) →
      parse_filename fname = (1, 0, (splitextList fname).1)) := by
  constructor
  · intro fname s e rest hnl hd
    obtain ⟨t0, hm, hstrip⟩ := matchSE_of_decomp hnl hd
    unfold parse_filename
    simp only [hm]
    rw [hstrip]
  · intro fname hno
    unfold parse_filename
    cases hm : matchSE (splitextList fname).1 with
    | none => simp only [hm]
    | some v =>
      obtain ⟨s, e, ttl⟩ := v
      obtain ⟨rest, hdec⟩ := matchSE_inv hm
      exact absurd hdec (hno s e rest)

/-- Claim C1 (counterexample to the original statement): the stem
`S01E01 - a\nb` admits the decomposition with remainder `a\nb`, but the parse
returns title `a`: the regex capture `(.*)` stops at the newline, so the
title is not the trimmed remainder. -/
theorem parse_filename_newline_cex :
    SpecDecomp "S01E01 - a\nb".toList 1 1 "a\nb".toList ∧
    pyStrip "a\nb".toList = "a\nb".toList ∧
    parse_filename "S01E01 - a\nb".toList ≠ (1, 1, "a\nb".toList) := by
  refine ⟨⟨'S', ['0', '1'], 'E', ['0', '1'], [' '], [' '], ?_, ?_, ?_, ?_, ?_,
    ?_, ?_, ?_, ?_, ?_, ?_, ?_, ?_⟩, ?_, ?_⟩ <;> decide

/-- Witness for `parse_filename_spec`: both branches applied at concrete
inputs, `S01E02 - Beta.mkv` (matching) and `Alpha.mkv` (non-matching). -/
theorem parse_filename_spec_witness :
    parse_filename "S01E02 - Beta.mkv".toList = (1, 2, pyStrip "Beta".toList) ∧
    parse_filename "Alpha.mkv".toList = (1, 0, "Alpha".toList) := by
  constructor
  · exact parse_filename_spec.1 "S01E02 - Beta.mkv".toList 1 2 "Beta".toList
      (by decide)
      ⟨'S', ['0', '1'], 'E', ['0', '2'], [' '], [' '], by decide, by decide,
        by decide, by decide, by decide, by decide, by decide, by decide,
        by decide, by decide, by decide, by decide, by decide⟩
  · refine parse_filename_spec.2 "Alpha.mkv".toList ?_
    intro s e rest hd
    obtain ⟨c1, ds, c2, es, ws1, ws2, heq, hc1, _⟩ := hd
    have : (splitextList "Alpha.mkv".toList).1 = 'A' :: "lpha".toList := by decide
    rw [this] at heq
    have hA : c1 = 'A' := (List.cons.injEq _ _ _ _ ▸ heq).1.symm
    rcases hc1 with h | h <;> rw [hA] at h <;> exact absurd h (by decide)

/-! ### Metadata Cache (src/4.1.py, `get_cached_metadata` lines 50-59,
`save_metadata` lines 61-69)

The cache directory is modelled as a map from keys (the `filename` argument)
to file contents.  A readable metadata file written by `save_metadata` always
holds a JSON object with the fields `title`, `overview` (strings) and
`genres` (list of integers); `json.dump` followed by `json.load` on such an
object is the identity, so a well-formed file is modelled by the record it
denotes, and any file `json.load` rejects is modelled by `corrupt`. -/

/-- The on-disk JSON record written by `save_metadata`. -/
structure MetaRec where
  title : String
  overview : String
  genres : List Int
deriving DecidableEq, Repr

/-- Content of a metadata file: a parseable record, or bytes that raise
`json.JSONDecodeError`/`ValueError` on load. -/
inductive FileData where
  | valid (rec : MetaRec)
  | corrupt
deriving DecidableEq, Repr

/-- The metadata directory: key to file content, absent files are `none`. -/
def MetaStore := String → Option FileData

/-- A genre id as it appears in the `data` dict handed to `save_metadata`:
an integer or a string (the claim restricts strings to numeric ones). -/
inductive GenreIn where
  | gint (n : Int)
  | gstr (s : String)
deriving DecidableEq, Repr

/-- Python `int(s)` on a string: optional surrounding whitespace, an optional
sign, then at least one decimal digit; anything else raises `ValueError`
(modelled as `none`).  Underscore digit separators are outside the model. -/
def pyIntOfString (s : String) : Option Int :=
  match pyStrip s.toList with
  | '+' :: ds =>
    if ds ≠ [] ∧ ∀ c ∈ ds, c.isDigit = true then some (digitsVal ds) else none
  | '-' :: ds =>
    if ds ≠ [] ∧ ∀ c ∈ ds, c.isDigit = true then some (-(digitsVal ds : Int))
    else none
  | ds =>
    if ds ≠ [] ∧ ∀ c ∈ ds, c.isDigit = true then some (digitsVal ds) else none

/-- Python `int(g)` for a genre id: identity on integers, string parsing on
strings. -/
def pyIntOfGenre : GenreIn → Option Int
  | .gint n => some n
  | .gstr s => pyIntOfString s

/-- The coercion `[int(g) for g in ...]`; `none` models the list
comprehension raising `ValueError`. -/
def coerceGenres : List GenreIn → Option (List Int)
  | [] => some []
  | g :: t =>
    match pyIntOfGenre g, coerceGenres t with
    | some n, some ns => some (n :: ns)
    | _, _ => none

/-- The `data` dict handed to `save_metadata`; `none` fields model absent
keys, for which `dict.get` supplies the defaults of the source. -/
structure MetaIn where
  title : Option String
  overview : Option String
  genres : Option (List GenreIn)

/-- Embedding of `save_metadata` (lines 61-69): coerce the genre ids to
integers, keep only title/overview/genres, write the file.  `str` on the
string fields is the identity (the claim restricts them to strings).  A
failing `int(g)` raises, modelled by `none`. -/
def save_metadata (store : MetaStore) (key : String) (d : MetaIn) :
    Option MetaStore :=
  match coerceGenres (d.genres.getD []) with
  | some gs =>
    some (fun k =>
      if k = key then some (.valid ⟨d.title.getD "", d.overview.getD "", gs⟩)
      else store k)
  | none => none

/-- Embedding of `get_cached_metadata` (lines 50-59): report the parsed
record if the file exists and parses; if it exists but does not parse,
delete it (`os.remove`) and report absent.  Returns the result together with
the store after the call. -/
def get_cached_metadata (store : MetaStore) (key : String) :
    Option MetaRec × MetaStore :=
  match store key with
  | none => (none, store)
  | some (.valid rec) => (some rec, store)
  | some .corrupt => (none, fun k => if k = key then none else store k)

/-- Claim C3: for a record with string title and overview and integer or
numeric-string genre ids, `put` then `get` returns the same title and
overview with the genre ids coerced to integers. -/
theorem put_get_roundtrip (store : MetaStore) (key : String)
    (t o : String) (gl : List GenreIn) (gs : List Int) (d : MetaIn)
    (ht : d.title = some t) (ho : d.overview = some o)
    (hg : d.genres = some gl) (hc : coerceGenres gl = some gs) :
    ∃ store', save_metadata store key d = some store' ∧
      (get_cached_metadata store' key).1 = some ⟨t, o, gs⟩ := by
  refine ⟨fun k => if k = key then some (.valid ⟨t, o, gs⟩) else store k, ?_, ?_⟩
  · unfold save_metadata
    rw [hg, Option.getD_some, hc, ht, ho]
    simp
  · unfold get_cached_metadata
    simp

/-- Witness for `put_get_roundtrip`: an integer and a numeric-string genre
id both end up as integers. -/
theorem put_get_roundtrip_witness :
    ∃ store', save_metadata (fun _ => none) "Show"
        ⟨some "Title", some "Plot", some [.gint 5, .gstr "07"]⟩ = some store' ∧
      (get_cached_metadata store' "Show").1 = some ⟨"Title", "Plot", [5, 7]⟩ :=
  put_get_roundtrip (fun _ => none) "Show" "Title" "Plot"
    [.gint 5, .gstr "07"] [5, 7] _ rfl rfl rfl (by decide)

/-- Claim C4: when the stored file for a key is unparseable, `get` reports
absent and removes the file, so a subsequent look at the store finds
nothing under the key. -/
theorem get_corrupt_self_heals (store : MetaStore) (key : String)
    (h : store key = some .corrupt) :
    (get_cached_metadata store key).1 = none ∧
    (get_cached_metadata store key).2 key = none := by
  unfold get_cached_metadata
  rw [h]
  simp

/-- Witness for `get_corrupt_self_heals` at a one-file store. -/
theorem get_corrupt_self_heals_witness :
    (get_cached_metadata (fun k => if k = "bad" then some .corrupt else none)
        "bad").1 = none ∧
    (get_cached_metadata (fun k => if k = "bad" then some .corrupt else none)
        "bad").2 "bad" = none :=
  get_corrupt_self_heals _ "bad" (by simp)

/-! ### Cache keys of the entry objects (src/4.1.py, `VideoItem` lines
773-825, `SeriesItem` lines 830-889)

`VideoItem.__init__` consults the cache under `self.filename`, the raw stem
of the file's basename, and `_fetch_online` writes under the same attribute.
`SeriesItem.__init__` consults the cache under `self.title`, initially the
raw folder basename; `fetch_metadata` reassigns `self.title` to the resolved
`tv.name` before calling `save_metadata(self.title, ...)`, so the write key
is the resolved show name.  The remote search results are passed in as data;
poster downloads touch only the poster directory and are outside the
metadata store modelled here. -/

/-- In-memory metadata fields shared by both entry classes. -/
structure EntryState where
  title : String
  overview : String
  genres : List Int
deriving DecidableEq, Repr

/-- A TMDb search result as consumed by the fetchers. -/
structure TVResult where
  name : String
  overview : String
  genre_ids : List Int
deriving DecidableEq, Repr

/-- The key `self.filename` of a `VideoItem`: stem of the basename. -/
def videoItemKey (path : List Char) : String :=
  String.mk (splitextList (pyBasename path)).1

/-- The key `self.title` under which `SeriesItem.__init__` consults the
cache: the raw folder basename, with no cleaning applied. -/
def seriesConsultKey (folder_path : List Char) : String :=
  String.mk (pyBasename folder_path)

/-- Embedding of `VideoItem.__init__` (lines 776-794): seed the state from
the cache under the raw stem; defaults otherwise.  Returns the state and the
store after the (possibly self-healing) read. -/
def video_init (store : MetaStore) (path : List Char) :
    EntryState × MetaStore :=
  match get_cached_metadata store (videoItemKey path) with
  | (some rec, store') => (⟨rec.title, rec.overview, rec.genres⟩, store')
  | (none, store') =>
    (⟨String.mk (pyBasename path), "No description available.", []⟩, store')

/-- Embedding of `VideoItem._fetch_online` (lines 799-825) on a found movie:
update the fields (falsy fields keep the prior value) and write the record
under `self.filename`.  The genre ids arrive as integers, so the write
always succeeds; `none` from `save_metadata` cannot occur but is mapped to
an unchanged store, mirroring the swallowed exception of the source. -/
def video_fetch (st : EntryState) (movie : Option TVResult)
    (store : MetaStore) (path : List Char) : EntryState × MetaStore :=
  match movie with
  | none => (st, store)
  | some mv =>
    let title' := if mv.name = "" then st.title else mv.name
    let overview' := if mv.overview = "" then st.overview else mv.overview
    let st' : EntryState := ⟨title', overview', mv.genre_ids⟩
    match save_metadata store (videoItemKey path)
        ⟨some title', some overview', some (mv.genre_ids.map .gint)⟩ with
    | some store' => (st', store')
    | none => (st', store)

/-- Embedding of `SeriesItem.__init__` (lines 833-850): `self.title` starts
as the folder basename and is the key consulted. -/
def series_init (store : MetaStore) (folder_path : List Char) :
    EntryState × MetaStore :=
  match get_cached_metadata store (seriesConsultKey folder_path) with
  | (some rec, store') => (⟨rec.title, rec.overview, rec.genres⟩, store')
  | (none, store') =>
    (⟨seriesConsultKey folder_path, "No description available.", []⟩, store')

/-- Embedding of `SeriesItem.fetch_metadata` (lines 858-889): on a non-empty
result list, `self.title` becomes `tv.name or self.title` and the record is
saved under that new title.  Empty results leave everything unchanged. -/
def series_fetch (st : EntryState) (results : List TVResult)
    (store : MetaStore) : EntryState × MetaStore :=
  match results with
  | [] => (st, store)
  | tv :: _ =>
    let title' := if tv.name = "" then st.title else tv.name
    let overview' := if tv.overview = "" then st.overview else tv.overview
    let st' : EntryState := ⟨title', overview', tv.genre_ids⟩
    match save_metadata store title'
        ⟨some title', some overview', some (tv.genre_ids.map .gint)⟩ with
    | some store' => (st', store')
    | none => (st', store)

theorem coerceGenres_map_gint (gs : List Int) :
    coerceGenres (gs.map .gint) = some gs := by
  induction gs with
  | nil => rfl
  | cons g t ih => simp [coerceGenres, pyIntOfGenre, ih]

/-- Claim C5 (amended): standalone videos read and write under the raw stem,
so a fetched record is found by the next scan of the same file; series read
under the raw folder basename but write under the resolved `tv.name` (or the
prior title when `tv.name` is falsy), so the next scan hits the cache
exactly when that resolved name equals the folder basename. -/
theorem cache_key_spec :
    (∀ (store : MetaStore) (path : List Char) (st : EntryState)
        (mv : TVResult),
      mv.name ≠ "" → mv.overview ≠ "" →
      (video_init (video_fetch st (some mv) store path).2 path).1 =
        ⟨mv.name, mv.overview, mv.genre_ids⟩)
    ∧ (∀ (store : MetaStore) (folder_path : List Char) (st : EntryState)
        (tv : TVResult) (rest : List TVResult),
      tv.name = seriesConsultKey folder_path → tv.name ≠ "" →
      tv.overview ≠ "" →
      (series_init (series_fetch st (tv :: rest) store).2 folder_path).1 =
        ⟨tv.name, tv.overview, tv.genre_ids⟩) := by
  constructor
  · intro store path st mv hn ho
    unfold video_fetch save_metadata
    simp only [Option.getD_some, coerceGenres_map_gint, if_neg hn, if_neg ho]
    unfold video_init get_cached_metadata
    simp
  · intro store folder_path st tv rest hkey hn ho
    unfold series_fetch save_metadata
    simp only [Option.getD_some, coerceGenres_map_gint, if_neg hn, if_neg ho]
    unfold series_init get_cached_metadata
    simp [hkey]

/-- Witness for `cache_key_spec` at concrete inputs whose resolved series
name equals the folder basename. -/
theorem cache_key_spec_witness :
    (video_init
        (video_fetch ⟨"Movie.mkv", "No description available.", []⟩
          (some ⟨"Movie", "A film.", [28]⟩) (fun _ => none)
          "/media/Movie.mkv".toList).2
        "/media/Movie.mkv".toList).1 = ⟨"Movie", "A film.", [28]⟩ ∧
    (series_init
        (series_fetch ⟨"Show", "No description available.", []⟩
          [⟨"Show", "A show.", [18]⟩] (fun _ => none)).2
        "/media/Show".toList).1 = ⟨"Show", "A show.", [18]⟩ := by
  constructor
  · exact cache_key_spec.1 (fun _ => none) "/media/Movie.mkv".toList
      ⟨"Movie.mkv", "No description available.", []⟩
      ⟨"Movie", "A film.", [28]⟩ (by decide) (by decide)
  · exact cache_key_spec.2 (fun _ => none) "/media/Show".toList
      ⟨"Show", "No description available.", []⟩
      ⟨"Show", "A show.", [18]⟩ [] (by decide) (by decide) (by decide)

/-- Claim C5 (counterexample to the original statement): for the folder
`/media/Show Folder` whose show resolves to `Show`, the fetcher writes the
record under `Show` while the next scan consults `Show Folder`, so the next
pass misses the cache even though a record was written. -/
theorem cache_key_mismatch_cex :
    ((series_fetch ⟨"Show Folder", "No description available.", []⟩
        [⟨"Show", "A show.", [18]⟩] (fun _ => none)).2 "Show" ≠ none) ∧
    ((series_fetch ⟨"Show Folder", "No description available.", []⟩
        [⟨"Show", "A show.", [18]⟩] (fun _ => none)).2
        (seriesConsultKey "/media/Show Folder".toList) = none) ∧
    (series_init
        (series_fetch ⟨"Show Folder", "No description available.", []⟩
          [⟨"Show", "A show.", [18]⟩] (fun _ => none)).2
        "/media/Show Folder".toList).1.title = "Show Folder" := by
  refine ⟨?_, ?_, ?_⟩ <;> decide

/-! ### Season Grouper (src/4.1.py, `parse_series_folder` lines 90-123,
`Episode` lines 1031-1035)

`parse_series_folder` scans the folder's direct children in filesystem
order, keeps files whose lowercased name ends with one of `video_exts`
(default `(".mkv", ".mp4", ".avi")`), matches the inline copy of the primary
pattern on the stem, appends an `Episode(title, path)` to the dict entry
`f"Season {season_num}"` (Python dicts preserve insertion order), and
finally sorts each season's list in place with the stable `list.sort` keyed
by `parse_episode_number(e.name)` — where `e.name` is the parsed display
title, not the filename. -/

/-- Embedding of the `Episode` value built by the grouper: constructed with
`poster_path=None`, so the placeholder `"video.png"` is stored. -/
structure Episode where
  name : String
  path : String
  poster_path : String
deriving DecidableEq, Repr

/-- The constructor call `Episode(title, entry.path)` (line 1031-1035): a
falsy `poster_path` resolves to the placeholder. -/
def mkEpisode (title path : String) : Episode :=
  ⟨title, path, "video.png"⟩

/-- Season number of the inline primary parse of a scanned name (line
103-111): the matched season, or the fallback 1. -/
def entrySeason (name : String) : Nat :=
  match matchSE (splitextList name.toList).1 with
  | some (s, _, _) => s
  | none => 1

/-- Display title of the inline primary parse of a scanned name: the
stripped capture, or the fallback full stem. -/
def entryTitle (name : String) : String :=
  match matchSE (splitextList name.toList).1 with
  | some (_, _, t) => String.mk (pyStrip t)
  | none => String.mk (splitextList name.toList).1

/-- The `Episode` appended for a recognized child file. -/
def entryEpisodeObj (folder_path name : String) : Episode :=
  mkEpisode (entryTitle name) (String.mk (joinPath folder_path.toList name.toList))

/-- The check `entry.name.lower().endswith(video_exts)` of line 100. -/
def groupRecog (name : String) (exts : List String) : Bool :=
  endsWithAny (pyLower name.toList) (exts.map String.toList)

/-- Insertion-ordered dict update: append to an existing season's list or
add a new season at the end. -/
def addSeason : List (String × List Episode) → String → Episode →
    List (String × List Episode)
  | [], k, ep => [(k, [ep])]
  | (k', eps) :: t, k, ep =>
    if k' = k then (k', eps ++ [ep]) :: t else (k', eps) :: addSeason t k ep

/-- Stable insertion keeping `a` before the first element of equal or larger
key, as `a` precedes the rest in the original order. -/
def insertK {α : Type} (k : α → Nat) (a : α) : List α → List α
  | [] => [a]
  | b :: t => if k b < k a then b :: insertK k a t else a :: b :: t

/-- Stable ascending sort by a `Nat` key, modelling Python's stable
`list.sort(key=...)`. -/
def pySort {α : Type} (k : α → Nat) : List α → List α
  | [] => []
  | a :: t => insertK k a (pySort k t)

/-- The scanning loop of lines 99-118 over the scandir order. -/
def seasonsFold (folder_path : String) (exts : List String) :
    List (String × List Episode) → List (String × Bool) →
    List (String × List Episode)
  | acc, [] => acc
  | acc, (name, isF) :: t =>
    if isF && groupRecog name exts then
      seasonsFold folder_path exts
        (addSeason acc ("Season " ++ toString (entrySeason name))
          (entryEpisodeObj folder_path name)) t
    else seasonsFold folder_path exts acc t

/-- Embedding of `parse_series_folder` (lines 90-123): empty result for a
missing folder; otherwise group the recognized child files by season and
sort each group by `parse_episode_number` of the episode's display name. -/
def parse_series_folder (folder_path : String) (folderExists : Bool)
    (entries : List (String × Bool))
    (video_exts : List String := [".mkv", ".mp4", ".avi"]) :
    List (String × List Episode) :=
  if folderExists then
    (seasonsFold folder_path video_exts [] entries).map
      (fun p => (p.1, pySort (fun ep => parse_episode_number ep.name.toList) p.2))
  else []

example :
    parse_series_folder "f" true
      [("S01E01 - Alpha.mkv", true), ("S01E02 - Beta.mkv", true)] =
    [("Season 1", [mkEpisode "Alpha" "f/S01E01 - Alpha.mkv",
                   mkEpisode "Beta" "f/S01E02 - Beta.mkv"])] := by decide

/-- Claim C9: a series folder path that does not exist yields the empty
mapping; the grouper returns its initial empty dict without touching the
filesystem. -/
theorem group_missing_folder_empty (folder_path : String)
    (entries : List (String × Bool)) (video_exts : List String) :
    parse_series_folder folder_path false entries video_exts = [] := by
  simp [parse_series_folder]

/-- Claim C2 (counterexample to the original statement): with scan order
Beta before Alpha, the sort key `parse_episode_number` is applied to the
parsed titles `Beta` and `Alpha`, both yielding 0, so the stable sort keeps
the scan order and Beta stays first — the claimed order Alpha-then-Beta does
not hold for this scan order. -/
theorem group_sort_scan_order_cex :
    parse_series_folder "f" true
      [("S01E02 - Beta.mkv", true), ("S01E01 - Alpha.mkv", true)] =
      [("Season 1", [mkEpisode "Beta" "f/S01E02 - Beta.mkv",
                     mkEpisode "Alpha" "f/S01E01 - Alpha.mkv"])] ∧
    parse_series_folder "f" true
      [("S01E02 - Beta.mkv", true), ("S01E01 - Alpha.mkv", true)] ≠
      [("Season 1", [mkEpisode "Alpha" "f/S01E01 - Alpha.mkv",
                     mkEpisode "Beta" "f/S01E02 - Beta.mkv"])] := by
  constructor <;> decide

/-- Claim C2 (amended): the per-season sort key is the secondary extraction
applied to the parsed display title; for `S01E02 - Beta.mkv` and
`S01E01 - Alpha.mkv` the titles carry no SxxExx marker, both keys are 0, and
the stable sort preserves the filesystem scan order in either direction. -/
theorem group_sort_by_title_key :
    parse_episode_number "Beta".toList = 0 ∧
    parse_episode_number "Alpha".toList = 0 ∧
    parse_series_folder "f" true
      [("S01E02 - Beta.mkv", true), ("S01E01 - Alpha.mkv", true)] =
      [("Season 1", [mkEpisode "Beta" "f/S01E02 - Beta.mkv",
                     mkEpisode "Alpha" "f/S01E01 - Alpha.mkv"])] ∧
    parse_series_folder "f" true
      [("S01E01 - Alpha.mkv", true), ("S01E02 - Beta.mkv", true)] =
      [("Season 1", [mkEpisode "Alpha" "f/S01E01 - Alpha.mkv",
                     mkEpisode "Beta" "f/S01E02 - Beta.mkv"])] := by
  refine ⟨?_, ?_, ?_, ?_⟩ <;> decide

theorem mem_insertK {α : Type} (k : α → Nat) (a x : α) (l : List α) :
    x ∈ insertK k a l ↔ x = a ∨ x ∈ l := by
  induction l with
  | nil => simp [insertK]
  | cons b t ih =>
    by_cases hb : k b < k a
    · simp only [insertK, if_pos hb, List.mem_cons, ih]
      tauto
    · simp only [insertK, if_neg hb, List.mem_cons]

theorem mem_pySort {α : Type} (k : α → Nat) (x : α) (l : List α) :
    x ∈ pySort k l ↔ x ∈ l := by
  induction l with
  | nil => simp [pySort]
  | cons a t ih => simp [pySort, mem_insertK, ih]

theorem insertK_ne_nil {α : Type} (k : α → Nat) (a : α) (l : List α) :
    insertK k a l ≠ [] := by
  cases l with
  | nil => simp [insertK]
  | cons b t =>
    by_cases hb : k b < k a
    · simp [insertK, if_pos hb]
    · simp [insertK, if_neg hb]

theorem pySort_ne_nil {α : Type} (k : α → Nat) (l : List α) (h : l ≠ []) :
    pySort k l ≠ [] := by
  cases l with
  | nil => exact absurd rfl h
  | cons a t => simp [pySort, insertK_ne_nil]

/-- Well-formedness of one group produced by the scanning loop, relative to
a property `P` of the recognized source names. -/
def GroupOK (fp : String) (exts : List String) (P : String → Prop)
    (p : String × List Episode) : Prop :=
  p.2 ≠ [] ∧ ∀ ep ∈ p.2, ∃ name, P name ∧ groupRecog name exts = true ∧
    p.1 = "Season " ++ toString (entrySeason name) ∧
    ep = entryEpisodeObj fp name

theorem addSeason_ok (fp : String) (exts : List String) (P : String → Prop)
    (acc : List (String × List Episode)) (nm : String)
    (hnm : P nm) (hrec : groupRecog nm exts = true)
    (hacc : ∀ p ∈ acc, GroupOK fp exts P p) :
    ∀ p ∈ addSeason acc ("Season " ++ toString (entrySeason nm))
        (entryEpisodeObj fp nm), GroupOK fp exts P p := by
  induction acc with
  | nil =>
    intro p hp
    simp only [addSeason, List.mem_singleton] at hp
    subst hp
    exact ⟨by simp, fun ep hep => by
      simp only [List.mem_singleton] at hep
      exact ⟨nm, hnm, hrec, rfl, hep⟩⟩
  | cons q t ih =>
    obtain ⟨k', eps⟩ := q
    intro p hp
    by_cases hk : k' = "Season " ++ toString (entrySeason nm)
    · simp only [addSeason, if_pos hk, List.mem_cons] at hp
      rcases hp with hp | hp
      · subst hp
        have hq := hacc (k', eps) (by simp)
        refine ⟨by simp, fun ep hep => ?_⟩
        rcases List.mem_append.mp hep with hep | hep
        · exact hq.2 ep hep
        · simp only [List.mem_singleton] at hep
          exact ⟨nm, hnm, hrec, hk, hep⟩
      · exact hacc p (by simp [hp])
    · simp only [addSeason, if_neg hk, List.mem_cons] at hp
      rcases hp with hp | hp
      · exact hacc p (by simp [hp])
      · exact ih (fun r hr => hacc r (by simp [hr])) p hp

theorem seasonsFold_ok (fp : String) (exts : List String) :
    ∀ (l : List (String × Bool)) (acc : List (String × List Episode))
      (P : String → Prop),
    (∀ name, (name, true) ∈ l → P name) →
    (∀ p ∈ acc, GroupOK fp exts P p) →
    ∀ p ∈ seasonsFold fp exts acc l, GroupOK fp exts P p := by
  intro l
  induction l with
  | nil => intro acc P _ hacc p hp; exact hacc p hp
  | cons hd t ih =>
    obtain ⟨name, isF⟩ := hd
    intro acc P hl hacc p hp
    by_cases hrec : (isF && groupRecog name exts) = true
    · simp only [seasonsFold, if_pos hrec] at hp
      have hisF : isF = true := by
        rcases Bool.and_eq_true _ _ |>.mp hrec with ⟨h1, _⟩; exact h1
      have hg : groupRecog name exts = true := by
        rcases Bool.and_eq_true _ _ |>.mp hrec with ⟨_, h2⟩; exact h2
      refine ih _ P (fun n hn => hl n (by simp [hn])) ?_ p hp
      exact addSeason_ok fp exts P acc name
        (hl name (by rw [hisF] at *; simp)) hg hacc
    · simp only [seasonsFold, if_neg hrec] at hp
      exact ih _ P (fun n hn => hl n (by simp [hn])) hacc p hp

/-- Claim C10: every key of the returned mapping is the literal
`"Season N"` for the season number that the primary parse assigns to every
episode file placed in that group, and every group is non-empty. -/
theorem group_keys_invariant (fp : String) (folderExists : Bool)
    (entries : List (String × Bool)) (exts : List String)
    (k : String) (eps : List Episode)
    (hmem : (k, eps) ∈ parse_series_folder fp folderExists entries exts) :
    eps ≠ [] ∧ ∀ ep ∈ eps, ∃ name, (name, true) ∈ entries ∧
      groupRecog name exts = true ∧
      k = "Season " ++ toString (entrySeason name) ∧
      ep = entryEpisodeObj fp name := by
  unfold parse_series_folder at hmem
  by_cases hex : folderExists = true
  · rw [if_pos hex] at hmem
    obtain ⟨⟨k0, eps0⟩, hmem0, heq⟩ := List.mem_map.mp hmem
    simp only [Prod.mk.injEq] at heq
    obtain ⟨hk0, heps⟩ := heq
    have hok := seasonsFold_ok fp exts entries []
      (fun name => (name, true) ∈ entries) (fun n hn => hn)
      (fun p hp => absurd hp (by simp)) _ hmem0
    subst hk0 heps
    refine ⟨pySort_ne_nil _ _ hok.1, fun ep hep => ?_⟩
    exact hok.2 ep ((mem_pySort _ ep eps0).mp hep)
  · rw [if_neg hex] at hmem
    simp at hmem

/-- Witness for `group_keys_invariant` at a two-season folder: the group of
`S02E01 - Pilot.mkv` carries the key `Season 2`. -/
theorem group_keys_invariant_witness :
    ("Season 2", [mkEpisode "Pilot" "f/S02E01 - Pilot.mkv"]) ∈
      parse_series_folder "f" true
        [("S01E01 - Alpha.mkv", true), ("S02E01 - Pilot.mkv", true)] ∧
    [mkEpisode "Pilot" "f/S02E01 - Pilot.mkv"] ≠ ([] : List Episode) := by
  constructor
  · decide
  · exact (group_keys_invariant "f" true
      [("S01E01 - Alpha.mkv", true), ("S02E01 - Pilot.mkv", true)]
      [".mkv", ".mp4", ".avi"] "Season 2"
      [mkEpisode "Pilot" "f/S02E01 - Pilot.mkv"] (by decide)).1

/-! ### Library Scanner (src/4.1.py, `VIDEO_EXTS` line 11,
`LibraryWindow.refresh_list` lines 1744-1763, `list_videos_in_dirs` lines
146-167, `is_video_file` lines 77-79)

`refresh_list` classifies the direct children of each configured folder:
files are kept when the lowercased name ends with one of the seven
`VIDEO_EXTS`; a directory becomes a series entry when some direct child file
passes the same check.  `list_videos_in_dirs` and `is_video_file` use a
local six-element set (no `.webm`) and compare the lowercased
`os.path.splitext` extension instead; `parse_series_folder`'s default tuple
holds only three extensions. -/

/-- The module constant `VIDEO_EXTS` (line 11). -/
def VIDEO_EXTS : List String :=
  [".mp4", ".mkv", ".avi", ".mov", ".flv", ".wmv", ".webm"]

/-- The local set of `list_videos_in_dirs` and `is_video_file` (lines 78,
147): six extensions, no `.webm`. -/
def FLAT_EXTS : List String :=
  [".mp4", ".mkv", ".avi", ".mov", ".wmv", ".flv"]

/-- The check `entry.name.lower().endswith(VIDEO_EXTS)` used by
`refresh_list` (lines 1753, 1758). -/
def scanRecog (name : String) : Bool :=
  endsWithAny (pyLower name.toList) (VIDEO_EXTS.map String.toList)

/-- The check `os.path.splitext(name)[1].lower() in video_exts` used by
`list_videos_in_dirs` (lines 158, 164) and `is_video_file` (line 79). -/
def flatRecog (name : String) : Bool :=
  decide (pyLower (splitextList name.toList).2 ∈ FLAT_EXTS.map String.toList)

/-- A direct child seen by `os.scandir` in `refresh_list`; for a directory
the direct children relevant to `has_videos` are carried as (name, is_file)
pairs. -/
structure ScanEntry where
  name : String
  isFile : Bool
  isDir : Bool
  children : List (String × Bool)
deriving DecidableEq, Repr

/-- A classified library item. -/
inductive ScanItem where
  | video (path : String)
  | series (path : String)
deriving DecidableEq, Repr

/-- The generator expression computing `has_videos` (lines 1757-1760). -/
def hasVideos (e : ScanEntry) : Bool :=
  e.children.any (fun c => c.2 && scanRecog c.1)

/-- Classification of one direct child in `refresh_list` (lines 1752-1763):
a recognized file becomes a video item, otherwise a directory with at least
one recognized direct child file becomes a series item. -/
def classifyEntry (folder : String) (e : ScanEntry) : List ScanItem :=
  if e.isFile && scanRecog e.name then
    [.video (String.mk (joinPath folder.toList e.name.toList))]
  else if e.isDir then
    if hasVideos e then
      [.series (String.mk (joinPath folder.toList e.name.toList))]
    else []
  else []

/-- Embedding of the scanning part of `refresh_list` (lines 1744-1763): each
configured folder is `none` when `os.path.exists` fails and is skipped;
otherwise its children are classified in scan order. -/
def refresh_scan (folders : List (String × Option (List ScanEntry))) :
    List ScanItem :=
  folders.flatMap (fun f =>
    match f.2 with
    | none => []
    | some es => es.flatMap (classifyEntry f.1))

/-- A directory tree as traversed by `os.walk`: the files of the root and
the named subtrees. -/
inductive FsTree where
  | node (files : List String) (dirs : List (String × FsTree))
deriving Repr

mutual

/-- The `os.walk` loop of `list_videos_in_dirs` (lines 154-159): files of
the root first, then each subtree in order, keeping `flatRecog` names. -/
def walkVideos (root : String) : FsTree → List String
  | .node files dirs =>
    (files.filter flatRecog).map
        (fun n => String.mk (joinPath root.toList n.toList)) ++
      walkDirs root dirs

/-- Traversal of the subtrees of one `os.walk` node, in order. -/
def walkDirs (root : String) : List (String × FsTree) → List String
  | [] => []
  | (n, sub) :: t =>
    walkVideos (String.mk (joinPath root.toList n.toList)) sub ++ walkDirs root t

end

/-- Embedding of `list_videos_in_dirs` (lines 146-167): missing folders are
skipped; recursive mode walks the tree, flat mode keeps the top-level files
passing `flatRecog`. -/
def list_videos_in_dirs (folders : List (String × Option FsTree))
    (recursive : Bool) : List String :=
  folders.flatMap (fun f =>
    match f.2 with
    | none => []
    | some t =>
      if recursive then walkVideos f.1 t
      else
        match t with
        | .node files _ =>
          (files.filter flatRecog).map
            (fun n => String.mk (joinPath f.1.toList n.toList)))

/-- Claim C6 (counterexample to the original statement): a `.webm` file is
treated as a video by the library scan but not by the flat listing nor by
the season grouper's default extensions, so the operations do not recognize
the same extension set. -/
theorem video_ext_mismatch_cex :
    refresh_scan [("m", some [⟨"a.webm", true, false, []⟩])] =
      [.video "m/a.webm"] ∧
    list_videos_in_dirs [("m", some (.node ["a.webm"] []))] false = [] ∧
    list_videos_in_dirs [("m", some (.node ["a.webm"] []))] true = [] ∧
    parse_series_folder "m" true [("a.webm", true)] = [] := by
  refine ⟨?_, ?_, ?_, ?_⟩
  · decide
  · decide
  · have hf : flatRecog "a.webm" = false := by decide
    simp [list_videos_in_dirs, walkVideos, walkDirs, hf]
  · decide

/-- Claim C6 (amended): the library scan recognizes the seven
case-insensitive suffixes of `VIDEO_EXTS` including `.webm`; the flat
listing recognizes the six-element set without `.webm` via the split
extension; the season grouper's default recognizes only `.mkv .mp4 .avi`.
The latter two recognizers only accept names the scan also accepts, and
`.webm` separates them. -/
theorem splitext_append (p : List Char) :
    (splitextList p).1 ++ (splitextList p).2 = p := by
  simp only [splitextList]
  cases hdw : p.reverse.dropWhile (fun c => !(c = '.' || c = '/')) with
  | nil => simp
  | cons c rest1 =>
    dsimp only
    have hsplit := List.takeWhile_append_dropWhile
      (p := fun c => !(c = '.' || c = '/')) (l := p.reverse)
    rw [hdw] at hsplit
    by_cases hc : c = '.'
    · subst hc
      by_cases hany :
          (rest1.takeWhile (fun d => !(d = '/'))).any (fun d => !(d = '.')) = true
      · rw [if_pos rfl, if_pos hany]
        have hrev := congrArg List.reverse hsplit
        simp only [List.reverse_append, List.reverse_cons, List.reverse_reverse,
          List.append_assoc, List.singleton_append] at hrev
        exact hrev
      · rw [if_pos rfl, if_neg hany]; simp
    · rw [if_neg hc]; simp

theorem video_ext_recognizers :
    scanRecog "a.webm" = true ∧
    flatRecog "a.webm" = false ∧
    groupRecog "a.webm" [".mkv", ".mp4", ".avi"] = false ∧
    (∀ name : String, groupRecog name [".mkv", ".mp4", ".avi"] = true →
      scanRecog name = true) ∧
    (∀ name : String, flatRecog name = true → scanRecog name = true) := by
  refine ⟨by decide, by decide, by decide, ?_, ?_⟩
  · intro name h
    unfold groupRecog endsWithAny at h
    unfold scanRecog endsWithAny
    rw [List.any_eq_true] at h ⊢
    obtain ⟨e, he, hsuf⟩ := h
    refine ⟨e, ?_, hsuf⟩
    rw [List.mem_map] at he ⊢
    obtain ⟨s, hs, hse⟩ := he
    refine ⟨s, ?_, hse⟩
    fin_cases hs <;> decide
  · intro name h
    unfold flatRecog at h
    have hmem := of_decide_eq_true h
    rw [List.mem_map] at hmem
    obtain ⟨s, hs, hse⟩ := hmem
    unfold scanRecog endsWithAny
    rw [List.any_eq_true]
    refine ⟨s.toList, ?_, ?_⟩
    · rw [List.mem_map]
      have hsV : s ∈ VIDEO_EXTS := by fin_cases hs <;> decide
      exact ⟨s, hsV, rfl⟩
    · rw [hse]
      have hlow : pyLower name.toList =
          pyLower (splitextList name.toList).1 ++
          pyLower (splitextList name.toList).2 := by
        unfold pyLower
        rw [← List.map_append, splitext_append]
      rw [hlow, List.isSuffixOf_iff_suffix]
      exact List.suffix_append _ _

/-- Witness for `video_ext_recognizers`: the containment branches applied to
a grouper-recognized and a flat-listing-recognized concrete name. -/
theorem video_ext_recognizers_witness :
    scanRecog "b.MKV" = true ∧ scanRecog "c.avi" = true :=
  ⟨video_ext_recognizers.2.2.2.1 "b.MKV" (by decide),
   video_ext_recognizers.2.2.2.2 "c.avi" (by decide)⟩

theorem video_mem_classifyEntry (fp : String) (e : ScanEntry) (p : String) :
    ScanItem.video p ∈ classifyEntry fp e ↔
      e.isFile = true ∧ scanRecog e.name = true ∧
      p = String.mk (joinPath fp.toList e.name.toList) := by
  unfold classifyEntry
  by_cases h1 : (e.isFile && scanRecog e.name) = true
  · rw [if_pos h1]
    rw [Bool.and_eq_true] at h1
    simp [h1.1, h1.2, eq_comm]
  · rw [if_neg h1]
    rw [Bool.and_eq_true] at h1
    constructor
    · intro hmem
      exfalso
      by_cases h2 : e.isDir = true
      · rw [if_pos h2] at hmem
        by_cases h3 : hasVideos e = true
        · rw [if_pos h3] at hmem; simp at hmem
        · rw [if_neg h3] at hmem; simp at hmem
      · rw [if_neg h2] at hmem; simp at hmem
    · intro ⟨ha, hb, _⟩
      exact absurd ⟨ha, hb⟩ h1

theorem series_mem_classifyEntry (fp : String) (e : ScanEntry) (p : String) :
    ScanItem.series p ∈ classifyEntry fp e ↔
      ¬(e.isFile = true ∧ scanRecog e.name = true) ∧ e.isDir = true ∧
      hasVideos e = true ∧
      p = String.mk (joinPath fp.toList e.name.toList) := by
  unfold classifyEntry
  by_cases h1 : (e.isFile && scanRecog e.name) = true
  · rw [if_pos h1]
    rw [Bool.and_eq_true] at h1
    simp [h1]
  · rw [if_neg h1]
    rw [Bool.and_eq_true] at h1
    by_cases h2 : e.isDir = true
    · rw [if_pos h2]
      by_cases h3 : hasVideos e = true
      · rw [if_pos h3]
        simp only [List.mem_singleton, ScanItem.series.injEq]
        constructor
        · intro hp; exact ⟨h1, h2, h3, hp⟩
        · intro h; exact h.2.2.2
      · rw [if_neg h3]
        simp [h3]
    · rw [if_neg h2]
      simp [h2]

theorem video_mem_refresh (folders : List (String × Option (List ScanEntry)))
    (p : String) :
    ScanItem.video p ∈ refresh_scan folders ↔
      ∃ fp es, (fp, some es) ∈ folders ∧ ∃ e ∈ es, e.isFile = true ∧
        scanRecog e.name = true ∧
        p = String.mk (joinPath fp.toList e.name.toList) := by
  unfold refresh_scan
  rw [List.mem_flatMap]
  constructor
  · rintro ⟨⟨fp, o⟩, hf, hp⟩
    cases o with
    | none => simp at hp
    | some es =>
      simp only [List.mem_flatMap] at hp
      obtain ⟨e, he, hpe⟩ := hp
      rw [video_mem_classifyEntry] at hpe
      exact ⟨fp, es, hf, e, he, hpe⟩
  · rintro ⟨fp, es, hf, e, he, h1, h2, h3⟩
    refine ⟨(fp, some es), hf, ?_⟩
    simp only [List.mem_flatMap]
    exact ⟨e, he, (video_mem_classifyEntry fp e p).mpr ⟨h1, h2, h3⟩⟩

theorem series_mem_refresh (folders : List (String × Option (List ScanEntry)))
    (p : String) :
    ScanItem.series p ∈ refresh_scan folders ↔
      ∃ fp es, (fp, some es) ∈ folders ∧ ∃ e ∈ es,
        ¬(e.isFile = true ∧ scanRecog e.name = true) ∧ e.isDir = true ∧
        hasVideos e = true ∧
        p = String.mk (joinPath fp.toList e.name.toList) := by
  unfold refresh_scan
  rw [List.mem_flatMap]
  constructor
  · rintro ⟨⟨fp, o⟩, hf, hp⟩
    cases o with
    | none => simp at hp
    | some es =>
      simp only [List.mem_flatMap] at hp
      obtain ⟨e, he, hpe⟩ := hp
      rw [series_mem_classifyEntry] at hpe
      exact ⟨fp, es, hf, e, he, hpe⟩
  · rintro ⟨fp, es, hf, e, he, h1, h2, h3, h4⟩
    refine ⟨(fp, some es), hf, ?_⟩
    simp only [List.mem_flatMap]
    exact ⟨e, he, (series_mem_classifyEntry fp e p).mpr ⟨h1, h2, h3, h4⟩⟩

/-- Claim C7: a nonexistent configured folder is skipped silently; a direct
child file with a recognized extension is exactly what yields a video item,
a direct child directory with at least one recognized direct-child file is
exactly what yields a series item (a subfolder without one yields nothing);
and the folder of the specification's scenario — one plain video file, one
subfolder with a video file and one subfolder without — yields exactly one
video item and one series item. -/
theorem scan_classification :
    (∀ (fp : String) (rest : List (String × Option (List ScanEntry))),
      refresh_scan ((fp, none) :: rest) = refresh_scan rest)
    ∧ (∀ folders p, ScanItem.video p ∈ refresh_scan folders ↔
        ∃ fp es, (fp, some es) ∈ folders ∧ ∃ e ∈ es, e.isFile = true ∧
          scanRecog e.name = true ∧
          p = String.mk (joinPath fp.toList e.name.toList))
    ∧ (∀ folders p, ScanItem.series p ∈ refresh_scan folders ↔
        ∃ fp es, (fp, some es) ∈ folders ∧ ∃ e ∈ es,
          ¬(e.isFile = true ∧ scanRecog e.name = true) ∧ e.isDir = true ∧
          hasVideos e = true ∧
          p = String.mk (joinPath fp.toList e.name.toList))
    ∧ refresh_scan [("m", some [⟨"Movie.mkv", true, false, []⟩,
        ⟨"Show", false, true, [("S01E01 - Ep.mkv", true)]⟩,
        ⟨"Extras", false, true, [("notes.txt", true)]⟩])] =
      [.video "m/Movie.mkv", .series "m/Show"] := by
  refine ⟨?_, video_mem_refresh, series_mem_refresh, by decide⟩
  intro fp rest
  simp [refresh_scan]

/-! ### Title cleaning (src/4.1.py, `clean_filename` lines 228-232)

The source performs four passes over the stem:
  1. `.replace(".", " ").replace("_", " ")`;
  2. `re.sub(r'\b(19|20)\d{2}\b', '', name)`;
  3. `re.sub(r'\b(720p|1080p|2160p|480p|HDR|BluRay|WEBRip|x264|H\.?264)\b', '',
     name, flags=re.IGNORECASE)`;
  4. `re.sub(r'\s+', ' ', name).strip()`.

`re.sub` scans left to right: at each position it tries the pattern; on a
match it removes it and resumes right after the match, remembering the last
matched character as the new left context for `\b`; otherwise it emits the
character and advances by one.  Both patterns here start and end with a word
character (`\b` hence means: previous character absent or non-word, next
character absent or non-word).  Removal scanning is factored into `subScan`
over a pluggable per-position matcher. -/

/-- The character to the left of the current scan position: the last
character of the already-consumed part, or the context `prev` the scan
started with. -/
def lastCtx (prev : Option Char) (u : List Char) : Option Char :=
  match u.getLast? with
  | some x => some x
  | none => prev

/-- Wordness of an optional context character. -/
def isWordO : Option Char → Bool
  | none => false
  | some c => isWord c

/-- Left `\b` before a word character: start of string or non-word left
neighbour. -/
def leftBdry (prev : Option Char) : Bool := !(isWordO prev)

/-- Right `\b` after a word character: end of string or non-word right
neighbour. -/
def rightB : List Char → Bool
  | [] => true
  | x :: _ => !(isWord x)

/-- The body `(19|20)\d{2}` of the year pattern. -/
def isYear4 (a b c d : Char) : Bool :=
  ((a = '1' && b = '9') || (a = '2' && b = '0')) && c.isDigit && d.isDigit

/-- One attempt of `\b(19|20)\d{2}\b` at the current position: on success
returns the last matched character (the new left context) and the rest. -/
def yearFire (prev : Option Char) (l : List Char) : Option (Char × List Char) :=
  match l with
  | a :: b :: c :: d :: t =>
    if leftBdry prev && isYear4 a b c d && rightB t then some (d, t) else none
  | _ => none

/-- The alternatives of the tag pattern, lowercased, in the order the
alternation tries them; `H\.?264` tries the dotted form first. -/
def tagAlts : List (List Char) :=
  ["720p".toList, "1080p".toList, "2160p".toList, "480p".toList,
   "hdr".toList, "bluray".toList, "webrip".toList, "x264".toList,
   "h.264".toList, "h264".toList]

/-- One attempt of a single alternative at the current position
(case-insensitive comparison, then the right `\b`). -/
def tryTag (alt l : List Char) : Option (Char × List Char) :=
  if (l.take alt.length).length == alt.length &&
      pyLower (l.take alt.length) == alt && rightB (l.drop alt.length) then
    match (l.take alt.length).getLast? with
    | some x => some (x, l.drop alt.length)
    | none => none
  else none

/-- The alternation: first alternative that matches wins. -/
def firstTag : List (List Char) → List Char → Option (Char × List Char)
  | [], _ => none
  | alt :: alts, l =>
    match tryTag alt l with
    | some r => some r
    | none => firstTag alts l

/-- One attempt of the whole tag pattern at the current position, including
the left `\b`. -/
def tagFire (prev : Option Char) (l : List Char) : Option (Char × List Char) :=
  if leftBdry prev then firstTag tagAlts l else none

/-- The `re.sub(pattern, '', s)` scan for a pattern whose matches start and
end in word characters: fire the matcher at each position, dropping matches
and resuming after them with the last matched character as left context.
`hM` bounds each match's remainder for termination. -/
def subScan (M : Option Char → List Char → Option (Char × List Char))
    (hM : ∀ prev l x rest, M prev l = some (x, rest) → rest.length < l.length)
    (prev : Option Char) (l : List Char) : List Char :=
  match l with
  | [] => []
  | a :: t =>
    match h : M prev (a :: t) with
    | some (x, rest) => subScan M hM (some x) rest
    | none => a :: subScan M hM (some a) t
termination_by l.length
decreasing_by
  · exact hM _ _ _ _ (by assumption)
  · simp

theorem yearFire_length : ∀ (prev : Option Char) (l : List Char) (x : Char)
    (rest : List Char), yearFire prev l = some (x, rest) →
    rest.length < l.length := by
  intro prev l x rest h
  match l with
  | [] => simp [yearFire] at h
  | [a] => simp [yearFire] at h
  | [a, b] => simp [yearFire] at h
  | [a, b, c] => simp [yearFire] at h
  | a :: b :: c :: d :: t =>
    simp only [yearFire] at h
    split at h
    · simp only [Option.some.injEq, Prod.mk.injEq] at h
      obtain ⟨_, h2⟩ := h
      subst h2
      simp only [List.length_cons]
      omega
    · simp at h

theorem tryTag_length {alt l : List Char} {x : Char} {rest : List Char}
    (halt : alt ≠ []) (h : tryTag alt l = some (x, rest)) :
    rest.length < l.length := by
  unfold tryTag at h
  split at h
  · rename_i hc
    simp only [Bool.and_eq_true, beq_iff_eq] at hc
    cases hg : (l.take alt.length).getLast? with
    | none => rw [hg] at h; simp at h
    | some y =>
      rw [hg] at h
      simp only [Option.some.injEq, Prod.mk.injEq] at h
      rw [← h.2]
      have h1 : (l.take alt.length).length = alt.length := hc.1.1
      have h2 : alt.length ≠ 0 := by
        intro hz; exact halt (List.length_eq_zero.mp hz)
      have h3 : (l.take alt.length).length ≤ l.length := by
        simp [List.length_take]
      simp only [List.length_drop]
      rw [List.length_take] at h1
      omega
  · simp at h

theorem tagFire_length : ∀ (prev : Option Char) (l : List Char) (x : Char)
    (rest : List Char), tagFire prev l = some (x, rest) →
    rest.length < l.length := by
  have key : ∀ alts, (∀ a ∈ alts, a ≠ ([] : List Char)) →
      ∀ (l : List Char) (x : Char) (rest : List Char),
      firstTag alts l = some (x, rest) → rest.length < l.length := by
    intro alts
    induction alts with
    | nil => intro _ l x rest h; simp [firstTag] at h
    | cons alt alts ih =>
      intro hne l x rest h
      unfold firstTag at h
      cases ht : tryTag alt l with
      | some r =>
        rw [ht] at h
        simp only [Option.some.injEq] at h
        subst h
        exact tryTag_length (hne alt (by simp)) ht
      | none =>
        rw [ht] at h
        exact ih (fun a ha => hne a (by simp [ha])) l x rest h
  intro prev l x rest h
  unfold tagFire at h
  split at h
  · exact key tagAlts (by decide) l x rest h
  · simp at h

/-- Embedding of pass 2 of `clean_filename` (line 230). -/
def yearSub (prev : Option Char) (l : List Char) : List Char :=
  subScan yearFire yearFire_length prev l

/-- Embedding of pass 3 of `clean_filename` (line 231). -/
def tagSub (prev : Option Char) (l : List Char) : List Char :=
  subScan tagFire tagFire_length prev l

/-- Embedding of pass 1 of `clean_filename` (line 229): dots and
underscores become spaces (the second `replace` sees no dots, so a single
map is equivalent). -/
def replDots (l : List Char) : List Char :=
  l.map (fun c => if c = '.' then ' ' else if c = '_' then ' ' else c)

theorem length_dropWhile_le' (p : Char → Bool) (l : List Char) :
    (l.dropWhile p).length ≤ l.length := by
  induction l with
  | nil => simp
  | cons c t ih =>
    by_cases hc : p c = true
    · simp only [List.dropWhile_cons, hc, if_true]
      exact Nat.le_succ_of_le ih
    · simp [List.dropWhile_cons, hc]

/-- Embedding of `re.sub(r'\s+', ' ', name)` (line 232): each maximal
whitespace run becomes one space. -/
def wsCollapse (l : List Char) : List Char :=
  match l with
  | [] => []
  | c :: t =>
    if pyIsSpace c then ' ' :: wsCollapse (t.dropWhile pyIsSpace)
    else c :: wsCollapse t
termination_by l.length
decreasing_by
  · simp only [List.length_cons]
    exact Nat.lt_succ_of_le (length_dropWhile_le' _ _)
  · simp

/-- Embedding of `clean_filename` (lines 228-232). -/
def clean_filename (filename : List Char) : List Char :=
  pyStrip (wsCollapse (tagSub none (yearSub none
    (replDots (splitextList filename).1))))

/-! ### Equation and context lemmas for the scan -/

theorem subScan_nil {M : Option Char → List Char → Option (Char × List Char)}
    {hM : ∀ prev l x rest, M prev l = some (x, rest) → rest.length < l.length}
    {prev : Option Char} : subScan M hM prev [] = [] := by
  rw [subScan]

theorem subScan_fire {M : Option Char → List Char → Option (Char × List Char)}
    {hM : ∀ prev l x rest, M prev l = some (x, rest) → rest.length < l.length}
    {prev : Option Char} {a : Char} {t : List Char} {x : Char}
    {rest : List Char} (h : M prev (a :: t) = some (x, rest)) :
    subScan M hM prev (a :: t) = subScan M hM (some x) rest := by
  rw [subScan]
  split
  · rename_i x' rest' heq
    rw [h] at heq
    simp only [Option.some.injEq, Prod.mk.injEq] at heq
    rw [heq.1, heq.2]
  · rename_i heq
    rw [h] at heq
    simp at heq

theorem subScan_none {M : Option Char → List Char → Option (Char × List Char)}
    {hM : ∀ prev l x rest, M prev l = some (x, rest) → rest.length < l.length}
    {prev : Option Char} {a : Char} {t : List Char}
    (h : M prev (a :: t) = none) :
    subScan M hM prev (a :: t) = a :: subScan M hM (some a) t := by
  rw [subScan]
  split
  · rename_i x' rest' heq
    rw [h] at heq
    simp at heq
  · rfl

theorem subScan_induct
    {M : Option Char → List Char → Option (Char × List Char)}
    (hM : ∀ prev l x rest, M prev l = some (x, rest) → rest.length < l.length)
    (motive : Option Char → List Char → Prop)
    (h0 : ∀ prev, motive prev [])
    (h1 : ∀ prev a t x rest, M prev (a :: t) = some (x, rest) →
      motive (some x) rest → motive prev (a :: t))
    (h2 : ∀ prev a t, M prev (a :: t) = none →
      motive (some a) t → motive prev (a :: t)) :
    ∀ prev l, motive prev l := by
  intro prev l
  generalize hn : l.length = n
  induction n using Nat.strong_induction_on generalizing prev l with
  | _ n ih =>
    cases l with
    | nil => exact h0 prev
    | cons a t =>
      cases hm : M prev (a :: t) with
      | some r =>
        obtain ⟨x, rest⟩ := r
        have hlt := hM prev (a :: t) x rest hm
        exact h1 prev a t x rest hm
          (ih rest.length (by rw [← hn]; exact hlt) (some x) rest rfl)
      | none =>
        exact h2 prev a t hm
          (ih t.length (by rw [← hn]; simp) (some a) t rfl)

theorem lastCtx_nil (prev : Option Char) : lastCtx prev [] = prev := rfl

theorem lastCtx_cons (prev : Option Char) (x : Char) (u : List Char) :
    lastCtx prev (x :: u) = lastCtx (some x) u := by
  induction u generalizing prev x with
  | nil => rfl
  | cons y u' ih =>
    unfold lastCtx
    rw [List.getLast?_cons_cons]
    have h1 := ih prev y
    have h2 := ih (some x) y
    unfold lastCtx at h1 h2
    rw [h1, ← h2]

theorem lastCtx_append (prev : Option Char) (s u : List Char) :
    lastCtx prev (s ++ u) = lastCtx (lastCtx prev s) u := by
  induction s generalizing prev with
  | nil => rfl
  | cons x s' ih =>
    rw [List.cons_append, lastCtx_cons, ih, lastCtx_cons]

theorem lastCtx_of_getLast {u : List Char} {x : Char} (prev : Option Char)
    (h : u.getLast? = some x) : lastCtx prev u = some x := by
  unfold lastCtx
  rw [h]

/-! ### Character class facts -/

theorem word_of_digit {c : Char} (h : c.isDigit = true) : isWord c = true := by
  simp [isWord, Char.isAlphanum, Char.isAlpha, h]

theorem not_word_of_space {c : Char} (h : pyIsSpace c = true) :
    isWord c = false := by
  simp only [pyIsSpace, Bool.or_eq_true, decide_eq_true_eq] at h
  rcases h with ((((h | h) | h) | h) | h) | h <;> subst h <;> decide

theorem not_space_of_word {c : Char} (h : isWord c = true) :
    pyIsSpace c = false := by
  cases hs : pyIsSpace c with
  | false => rfl
  | true => rw [not_word_of_space hs] at h; exact absurd h (by simp)

theorem isWord_pyLowerChar (c : Char) : isWord (pyLowerChar c) = isWord c := by
  unfold pyLowerChar
  by_cases h0 : c = 'A'
  · rw [if_pos h0, h0]; decide
  rw [if_neg h0]
  by_cases h1 : c = 'B'
  · rw [if_pos h1, h1]; decide
  rw [if_neg h1]
  by_cases h2 : c = 'C'
  · rw [if_pos h2, h2]; decide
  rw [if_neg h2]
  by_cases h3 : c = 'D'
  · rw [if_pos h3, h3]; decide
  rw [if_neg h3]
  by_cases h4 : c = 'E'
  · rw [if_pos h4, h4]; decide
  rw [if_neg h4]
  by_cases h5 : c = 'F'
  · rw [if_pos h5, h5]; decide
  rw [if_neg h5]
  by_cases h6 : c = 'G'
  · rw [if_pos h6, h6]; decide
  rw [if_neg h6]
  by_cases h7 : c = 'H'
  · rw [if_pos h7, h7]; decide
  rw [if_neg h7]
  by_cases h8 : c = 'I'
  · rw [if_pos h8, h8]; decide
  rw [if_neg h8]
  by_cases h9 : c = 'J'
  · rw [if_pos h9, h9]; decide
  rw [if_neg h9]
  by_cases h10 : c = 'K'
  · rw [if_pos h10, h10]; decide
  rw [if_neg h10]
  by_cases h11 : c = 'L'
  · rw [if_pos h11, h11]; decide
  rw [if_neg h11]
  by_cases h12 : c = 'M'
  · rw [if_pos h12, h12]; decide
  rw [if_neg h12]
  by_cases h13 : c = 'N'
  · rw [if_pos h13, h13]; decide
  rw [if_neg h13]
  by_cases h14 : c = 'O'
  · rw [if_pos h14, h14]; decide
  rw [if_neg h14]
  by_cases h15 : c = 'P'
  · rw [if_pos h15, h15]; decide
  rw [if_neg h15]
  by_cases h16 : c = 'Q'
  · rw [if_pos h16, h16]; decide
  rw [if_neg h16]
  by_cases h17 : c = 'R'
  · rw [if_pos h17, h17]; decide
  rw [if_neg h17]
  by_cases h18 : c = 'S'
  · rw [if_pos h18, h18]; decide
  rw [if_neg h18]
  by_cases h19 : c = 'T'
  · rw [if_pos h19, h19]; decide
  rw [if_neg h19]
  by_cases h20 : c = 'U'
  · rw [if_pos h20, h20]; decide
  rw [if_neg h20]
  by_cases h21 : c = 'V'
  · rw [if_pos h21, h21]; decide
  rw [if_neg h21]
  by_cases h22 : c = 'W'
  · rw [if_pos h22, h22]; decide
  rw [if_neg h22]
  by_cases h23 : c = 'X'
  · rw [if_pos h23, h23]; decide
  rw [if_neg h23]
  by_cases h24 : c = 'Y'
  · rw [if_pos h24, h24]; decide
  rw [if_neg h24]
  by_cases h25 : c = 'Z'
  · rw [if_pos h25, h25]; decide
  rw [if_neg h25]

theorem pyLowerChar_dot {c : Char} (h : pyLowerChar c = '.') : c = '.' := by
  unfold pyLowerChar at h
  by_cases h0 : c = 'A'
  · rw [if_pos h0] at h; exact absurd h (by decide)
  rw [if_neg h0] at h
  by_cases h1 : c = 'B'
  · rw [if_pos h1] at h; exact absurd h (by decide)
  rw [if_neg h1] at h
  by_cases h2 : c = 'C'
  · rw [if_pos h2] at h; exact absurd h (by decide)
  rw [if_neg h2] at h
  by_cases h3 : c = 'D'
  · rw [if_pos h3] at h; exact absurd h (by decide)
  rw [if_neg h3] at h
  by_cases h4 : c = 'E'
  · rw [if_pos h4] at h; exact absurd h (by decide)
  rw [if_neg h4] at h
  by_cases h5 : c = 'F'
  · rw [if_pos h5] at h; exact absurd h (by decide)
  rw [if_neg h5] at h
  by_cases h6 : c = 'G'
  · rw [if_pos h6] at h; exact absurd h (by decide)
  rw [if_neg h6] at h
  by_cases h7 : c = 'H'
  · rw [if_pos h7] at h; exact absurd h (by decide)
  rw [if_neg h7] at h
  by_cases h8 : c = 'I'
  · rw [if_pos h8] at h; exact absurd h (by decide)
  rw [if_neg h8] at h
  by_cases h9 : c = 'J'
  · rw [if_pos h9] at h; exact absurd h (by decide)
  rw [if_neg h9] at h
  by_cases h10 : c = 'K'
  · rw [if_pos h10] at h; exact absurd h (by decide)
  rw [if_neg h10] at h
  by_cases h11 : c = 'L'
  · rw [if_pos h11] at h; exact absurd h (by decide)
  rw [if_neg h11] at h
  by_cases h12 : c = 'M'
  · rw [if_pos h12] at h; exact absurd h (by decide)
  rw [if_neg h12] at h
  by_cases h13 : c = 'N'
  · rw [if_pos h13] at h; exact absurd h (by decide)
  rw [if_neg h13] at h
  by_cases h14 : c = 'O'
  · rw [if_pos h14] at h; exact absurd h (by decide)
  rw [if_neg h14] at h
  by_cases h15 : c = 'P'
  · rw [if_pos h15] at h; exact absurd h (by decide)
  rw [if_neg h15] at h
  by_cases h16 : c = 'Q'
  · rw [if_pos h16] at h; exact absurd h (by decide)
  rw [if_neg h16] at h
  by_cases h17 : c = 'R'
  · rw [if_pos h17] at h; exact absurd h (by decide)
  rw [if_neg h17] at h
  by_cases h18 : c = 'S'
  · rw [if_pos h18] at h; exact absurd h (by decide)
  rw [if_neg h18] at h
  by_cases h19 : c = 'T'
  · rw [if_pos h19] at h; exact absurd h (by decide)
  rw [if_neg h19] at h
  by_cases h20 : c = 'U'
  · rw [if_pos h20] at h; exact absurd h (by decide)
  rw [if_neg h20] at h
  by_cases h21 : c = 'V'
  · rw [if_pos h21] at h; exact absurd h (by decide)
  rw [if_neg h21] at h
  by_cases h22 : c = 'W'
  · rw [if_pos h22] at h; exact absurd h (by decide)
  rw [if_neg h22] at h
  by_cases h23 : c = 'X'
  · rw [if_pos h23] at h; exact absurd h (by decide)
  rw [if_neg h23] at h
  by_cases h24 : c = 'Y'
  · rw [if_pos h24] at h; exact absurd h (by decide)
  rw [if_neg h24] at h
  by_cases h25 : c = 'Z'
  · rw [if_pos h25] at h; exact absurd h (by decide)
  rw [if_neg h25] at h
  exact h

/-! ### No-match predicates and the properties of the two matchers

`NoHit M prev l` says the matcher fires at no scan position of `l`, where
the left context of position `u` is the last character of `u` (or `prev` at
the start).  `MatcherOK` bundles the facts about `yearFire`/`tagFire` the
idempotence argument uses; `pc` is a character-level restriction under which
every match consists of word characters (trivial for years; `no dot` for
tags, ruling the dead `h.264` alternative out on the dot-free strings the
pipeline produces). -/

def NoHit (M : Option Char → List Char → Option (Char × List Char))
    (prev : Option Char) (l : List Char) : Prop :=
  ∀ u w, l = u ++ w → M (lastCtx prev u) w = none

structure MatcherOK
    (M : Option Char → List Char → Option (Char × List Char))
    (pc : Char → Bool) : Prop where
  hnil : ∀ prev, M prev [] = none
  block : ∀ prev l, isWordO prev = true → M prev l = none
  ctxIrrel : ∀ p q l, leftBdry p = leftBdry q → M p l = M q l
  hsub : ∀ prev l x rest, M prev l = some (x, rest) → ∃ seg, l = seg ++ rest
  shape : ∀ prev w x rest, (∀ c ∈ w, pc c = true) → M prev w = some (x, rest) →
    ∃ seg, w = seg ++ rest ∧ seg ≠ [] ∧ seg.getLast? = some x ∧
      (∀ c ∈ seg, isWord c = true) ∧ rightB rest = true
  htrans : ∀ prev seg w w' x, M prev (seg ++ w) = some (x, w) →
    rightB w' = true → M prev (seg ++ w') = some (x, w')

theorem NoHit_shift {M : Option Char → List Char → Option (Char × List Char)}
    {prev : Option Char} {a : Char} {t : List Char}
    (h : NoHit M prev (a :: t)) : NoHit M (some a) t := by
  intro u w hw
  have := h (a :: u) w (by rw [hw, List.cons_append])
  rwa [lastCtx_cons] at this

theorem NoHit_here {M : Option Char → List Char → Option (Char × List Char)}
    {prev : Option Char} {l : List Char} (h : NoHit M prev l) :
    M prev l = none := by
  have := h [] l (by simp)
  rwa [lastCtx_nil] at this

theorem NoHit_suffix {M : Option Char → List Char → Option (Char × List Char)}
    {prev : Option Char} {s l : List Char}
    (h : NoHit M prev (s ++ l)) : NoHit M (lastCtx prev s) l := by
  intro u w hw
  have := h (s ++ u) w (by rw [hw, List.append_assoc])
  rwa [lastCtx_append] at this

theorem NoHit_cons {M : Option Char → List Char → Option (Char × List Char)}
    {prev : Option Char} {a : Char} {t : List Char}
    (h1 : M prev (a :: t) = none) (h2 : NoHit M (some a) t) :
    NoHit M prev (a :: t) := by
  intro u w hw
  cases u with
  | nil =>
    simp only [List.nil_append] at hw
    rw [lastCtx_nil, ← hw]
    exact h1
  | cons u0 u' =>
    rw [List.cons_append] at hw
    have h3 : a = u0 := (List.cons.injEq _ _ _ _ ▸ hw).1
    have h4 : t = u' ++ w := (List.cons.injEq _ _ _ _ ▸ hw).2
    rw [lastCtx_cons, ← h3]
    exact h2 u' w h4

/-! ### Generic facts about the removal scan -/

theorem mem_subScan {M : Option Char → List Char → Option (Char × List Char)}
    {hM : ∀ prev l x rest, M prev l = some (x, rest) → rest.length < l.length}
    (hsub : ∀ prev l x rest, M prev l = some (x, rest) → ∃ seg, l = seg ++ rest) :
    ∀ prev l c, c ∈ subScan M hM prev l → c ∈ l := by
  have key := subScan_induct hM
    (fun prev l => ∀ c, c ∈ subScan M hM prev l → c ∈ l)
    (by intro prev c hc; rw [subScan_nil] at hc; simp at hc)
    (by
      intro prev a t x rest hm ih c hc
      rw [subScan_fire hm] at hc
      obtain ⟨seg, hseg⟩ := hsub prev (a :: t) x rest hm
      rw [hseg]
      simp only [List.mem_append]
      exact Or.inr (ih c hc))
    (by
      intro prev a t hm ih c hc
      rw [subScan_none hm] at hc
      rcases List.mem_cons.mp hc with hc | hc
      · simp [hc]
      · exact List.mem_cons_of_mem _ (ih c hc))
  intro prev l
  exact key prev l

theorem subScan_head {M : Option Char → List Char → Option (Char × List Char)}
    {hM : ∀ prev l x rest, M prev l = some (x, rest) → rest.length < l.length}
    (okM : ∀ prev l, isWordO prev = true → M prev l = none)
    {w : Char} (hw : isWord w = true) (c : Char) (t : List Char) :
    subScan M hM (some w) (c :: t) = c :: subScan M hM (some c) t := by
  apply subScan_none
  exact okM (some w) (c :: t) (by simpa [isWordO])

/-- Word characters pass through the scan unchanged when it starts blocked:
a word-character prefix of the output is a prefix of the input, and the tail
of the output is the scan of the tail of the input. -/
theorem subScan_word_decomp
    {M : Option Char → List Char → Option (Char × List Char)}
    {hM : ∀ prev l x rest, M prev l = some (x, rest) → rest.length < l.length}
    (okM : ∀ prev l, isWordO prev = true → M prev l = none) :
    ∀ (p : List Char) (w : Char) (t v : List Char), isWord w = true →
    (∀ c ∈ p, isWord c = true) → subScan M hM (some w) t = p ++ v →
    ∃ t', t = p ++ t' ∧ v = subScan M hM (lastCtx (some w) p) t' := by
  intro p
  induction p with
  | nil =>
    intro w t v _ _ he
    rw [List.nil_append] at he
    exact ⟨t, by simp, by rw [lastCtx_nil, ← he]⟩
  | cons q p' ih =>
    intro w t v hw hp he
    cases t with
    | nil =>
      rw [subScan_nil] at he
      exact absurd he.symm (by simp)
    | cons a t1 =>
      rw [subScan_head okM hw] at he
      rw [List.cons_append] at he
      have ha : a = q := (List.cons.injEq _ _ _ _ ▸ he).1
      have he2 : subScan M hM (some a) t1 = p' ++ v :=
        (List.cons.injEq _ _ _ _ ▸ he).2
      subst ha
      have hq : isWord a = true := hp a (by simp)
      obtain ⟨t', ht, hv⟩ := ih a t1 v hq (fun c hc => hp c (by simp [hc])) he2
      exact ⟨t', by rw [ht, List.cons_append], by rw [hv, lastCtx_cons]⟩

/-- The scan of a list whose head survives transmits the right-boundary
condition of the output to the input. -/
theorem subScan_rightB
    {M : Option Char → List Char → Option (Char × List Char)}
    {hM : ∀ prev l x rest, M prev l = some (x, rest) → rest.length < l.length}
    (okM : ∀ prev l, isWordO prev = true → M prev l = none)
    {w : Char} (hw : isWord w = true) (t : List Char)
    (h : rightB (subScan M hM (some w) t) = true) : rightB t = true := by
  cases t with
  | nil => rfl
  | cons a t1 =>
    rw [subScan_head okM hw] at h
    exact h

/-- Identity of the scan on hit-free input. -/
theorem subScan_id {M : Option Char → List Char → Option (Char × List Char)}
    {hM : ∀ prev l x rest, M prev l = some (x, rest) → rest.length < l.length} :
    ∀ prev l, NoHit M prev l → subScan M hM prev l = l := by
  exact subScan_induct hM
    (fun prev l => NoHit M prev l → subScan M hM prev l = l)
    (by intro prev _; exact subScan_nil)
    (by
      intro prev a t x rest hm _ hnh
      exact absurd hm (by rw [NoHit_here hnh]; simp))
    (by
      intro prev a t hm ih hnh
      rw [subScan_none hm, ih (NoHit_shift hnh)])

theorem mem_of_getLast?' {l : List Char} {x : Char}
    (h : l.getLast? = some x) : x ∈ l := by
  induction l with
  | nil => simp at h
  | cons a t ih =>
    cases t with
    | nil =>
      simp only [List.getLast?_singleton, Option.some.injEq] at h
      simp [h]
    | cons b t' =>
      rw [List.getLast?_cons_cons] at h
      exact List.mem_cons_of_mem _ (ih h)

theorem lastCtx_getLast (a : Char) (u : List Char) :
    lastCtx (some a) u = (a :: u).getLast? := by
  induction u generalizing a with
  | nil => rfl
  | cons y u' ih =>
    rw [lastCtx_cons, ih, List.getLast?_cons_cons]

/-- Completeness of the scan: the output contains no match at any position,
with respect to the contexts the scan itself maintains. -/
theorem subScan_noHit {M : Option Char → List Char → Option (Char × List Char)}
    {pc : Char → Bool}
    {hM : ∀ prev l x rest, M prev l = some (x, rest) → rest.length < l.length}
    (ok : MatcherOK M pc) :
    ∀ prev l, (∀ c ∈ l, pc c = true) → NoHit M prev (subScan M hM prev l) := by
  refine subScan_induct hM
    (fun prev l => (∀ c ∈ l, pc c = true) → NoHit M prev (subScan M hM prev l))
    ?_ ?_ ?_
  · intro prev _ u w hw
    rw [subScan_nil] at hw
    obtain ⟨hu, hwnil⟩ := List.append_eq_nil.mp hw.symm
    rw [hwnil]
    exact ok.hnil _
  · -- the matcher fired; the scan continues after the match
    intro prev a t x rest hm ih hpc
    rw [subScan_fire hm]
    obtain ⟨seg, hseg, hsegne, hlast, hsegw, hrB⟩ :=
      ok.shape prev (a :: t) x rest hpc hm
    have hxw : isWord x = true := hsegw x (mem_of_getLast?' hlast)
    have hpcrest : ∀ c ∈ rest, pc c = true := by
      intro c hc
      exact hpc c (by rw [hseg]; simp [hc])
    have hZ := ih hpcrest
    intro u w hw
    cases u with
    | nil =>
      rw [List.nil_append] at hw
      rw [lastCtx_nil, ← hw]
      cases hmz : M prev (subScan M hM (some x) rest) with
      | none => rfl
      | some r =>
        exfalso
        obtain ⟨x2, rest2⟩ := r
        have hpcZ : ∀ c ∈ subScan M hM (some x) rest, pc c = true :=
          fun c hc => hpcrest c (mem_subScan ok.hsub (some x) rest c hc)
        obtain ⟨seg2, hseg2, hseg2ne, _, hseg2w, _⟩ :=
          ok.shape prev _ x2 rest2 hpcZ hmz
        cases rest with
        | nil =>
          rw [subScan_nil] at hseg2
          exact hseg2ne (List.append_eq_nil.mp hseg2.symm).1
        | cons r0 r1 =>
          have hr0 : isWord r0 = false := by
            simpa [rightB] using hrB
          rw [subScan_head ok.block hxw] at hseg2
          cases seg2 with
          | nil => exact hseg2ne rfl
          | cons s0 s' =>
            rw [List.cons_append] at hseg2
            have hs0 : r0 = s0 := (List.cons.injEq _ _ _ _ ▸ hseg2).1
            have := hseg2w s0 (by simp)
            rw [← hs0, hr0] at this
            exact absurd this (by simp)
    | cons u0 u' =>
      rw [lastCtx_cons]
      have := hZ (u0 :: u') w hw
      rwa [lastCtx_cons] at this
  · -- no match here; the head character is emitted
    intro prev a t hm ih hpc
    rw [subScan_none hm]
    have hpct : ∀ c ∈ t, pc c = true := fun c hc => hpc c (by simp [hc])
    refine NoHit_cons ?_ (ih hpct)
    cases hm1 : M prev (a :: subScan M hM (some a) t) with
    | none => rfl
    | some r =>
      exfalso
      obtain ⟨x1, rest1⟩ := r
      have hpcaZ : ∀ c ∈ a :: subScan M hM (some a) t, pc c = true := by
        intro c hc
        rcases List.mem_cons.mp hc with hc | hc
        · rw [hc]; exact hpc a (by simp)
        · exact hpct c (mem_subScan ok.hsub (some a) t c hc)
      obtain ⟨seg1, hseg1, hseg1ne, hlast1, hseg1w, hrB1⟩ :=
        ok.shape prev _ x1 rest1 hpcaZ hm1
      cases seg1 with
      | nil => exact hseg1ne rfl
      | cons s0 seg1' =>
        rw [List.cons_append] at hseg1
        have hs0 : a = s0 := (List.cons.injEq _ _ _ _ ▸ hseg1).1
        have hZdec : subScan M hM (some a) t = seg1' ++ rest1 :=
          (List.cons.injEq _ _ _ _ ▸ hseg1).2
        have haw : isWord a = true := by
          rw [hs0]; exact hseg1w s0 (by simp)
        obtain ⟨t', ht', hrest1⟩ := subScan_word_decomp ok.block seg1' a t rest1
          haw (fun c hc => hseg1w c (by simp [hc])) hZdec
        have hctx : lastCtx (some a) seg1' = some x1 := by
          rw [lastCtx_getLast, hs0]
          exact hlast1
        rw [hctx] at hrest1
        have hx1w : isWord x1 = true := hseg1w x1 (mem_of_getLast?' hlast1)
        have hrBt' : rightB t' = true := by
          apply subScan_rightB ok.block hx1w t'
          rw [← hrest1]
          exact hrB1
        have hfire : M prev ((s0 :: seg1') ++ t') = some (x1, t') := by
          apply ok.htrans prev (s0 :: seg1') rest1 t' x1 ?_ hrBt'
          rw [List.cons_append, ← hseg1, hm1]
        rw [← hs0] at hfire
        rw [List.cons_append, ← ht'] at hfire
        rw [hm] at hfire
        exact absurd hfire (by simp)

/-- Matches of one pattern survive removal of another pattern's matches:
the removal only deletes word-character segments whose two neighbours are
non-word, so it cannot create a match of the first pattern. -/
theorem subScan_preserves_noHit
    {M1 M2 : Option Char → List Char → Option (Char × List Char)}
    {pc1 pc2 : Char → Bool}
    (ok1 : MatcherOK M1 pc1) (ok2 : MatcherOK M2 pc2)
    {hM2 : ∀ prev l x rest, M2 prev l = some (x, rest) → rest.length < l.length} :
    ∀ prev l, (∀ c ∈ l, pc1 c = true) → (∀ c ∈ l, pc2 c = true) →
    NoHit M1 prev l → NoHit M1 prev (subScan M2 hM2 prev l) := by
  refine subScan_induct hM2
    (fun prev l => (∀ c ∈ l, pc1 c = true) → (∀ c ∈ l, pc2 c = true) →
      NoHit M1 prev l → NoHit M1 prev (subScan M2 hM2 prev l))
    ?_ ?_ ?_
  · intro prev _ _ _ u w hw
    rw [subScan_nil] at hw
    obtain ⟨hu, hwnil⟩ := List.append_eq_nil.mp hw.symm
    rw [hwnil]
    exact ok1.hnil _
  · -- M2 fired
    intro prev a t x rest hm ih hpc1 hpc2 hnh
    rw [subScan_fire hm]
    obtain ⟨seg, hseg, hsegne, hlast, hsegw, hrB⟩ :=
      ok2.shape prev (a :: t) x rest hpc2 hm
    have hxw : isWord x = true := hsegw x (mem_of_getLast?' hlast)
    have hpc1rest : ∀ c ∈ rest, pc1 c = true := by
      intro c hc; exact hpc1 c (by rw [hseg]; simp [hc])
    have hpc2rest : ∀ c ∈ rest, pc2 c = true := by
      intro c hc; exact hpc2 c (by rw [hseg]; simp [hc])
    have hnhrest : NoHit M1 (some x) rest := by
      have := NoHit_suffix (s := seg) (by rwa [← hseg])
      rwa [lastCtx_of_getLast prev hlast] at this
    have hZ := ih hpc1rest hpc2rest hnhrest
    intro u w hw
    cases u with
    | nil =>
      rw [List.nil_append] at hw
      rw [lastCtx_nil, ← hw]
      cases hmz : M1 prev (subScan M2 hM2 (some x) rest) with
      | none => rfl
      | some r =>
        exfalso
        obtain ⟨x2, rest2⟩ := r
        have hpcZ : ∀ c ∈ subScan M2 hM2 (some x) rest, pc1 c = true :=
          fun c hc => hpc1rest c (mem_subScan ok2.hsub (some x) rest c hc)
        obtain ⟨seg2, hseg2, hseg2ne, _, hseg2w, _⟩ :=
          ok1.shape prev _ x2 rest2 hpcZ hmz
        cases rest with
        | nil =>
          rw [subScan_nil] at hseg2
          exact hseg2ne (List.append_eq_nil.mp hseg2.symm).1
        | cons r0 r1 =>
          have hr0 : isWord r0 = false := by
            simpa [rightB] using hrB
          rw [subScan_head ok2.block hxw] at hseg2
          cases seg2 with
          | nil => exact hseg2ne rfl
          | cons s0 s' =>
            rw [List.cons_append] at hseg2
            have hs0 : r0 = s0 := (List.cons.injEq _ _ _ _ ▸ hseg2).1
            have := hseg2w s0 (by simp)
            rw [← hs0, hr0] at this
            exact absurd this (by simp)
    | cons u0 u' =>
      rw [lastCtx_cons]
      have := hZ (u0 :: u') w hw
      rwa [lastCtx_cons] at this
  · -- M2 does not fire here
    intro prev a t hm ih hpc1 hpc2 hnh
    rw [subScan_none hm]
    have hpc1t : ∀ c ∈ t, pc1 c = true := fun c hc => hpc1 c (by simp [hc])
    have hpc2t : ∀ c ∈ t, pc2 c = true := fun c hc => hpc2 c (by simp [hc])
    refine NoHit_cons ?_ (ih hpc1t hpc2t (NoHit_shift hnh))
    cases hm1 : M1 prev (a :: subScan M2 hM2 (some a) t) with
    | none => rfl
    | some r =>
      exfalso
      obtain ⟨x1, rest1⟩ := r
      have hpcaZ : ∀ c ∈ a :: subScan M2 hM2 (some a) t, pc1 c = true := by
        intro c hc
        rcases List.mem_cons.mp hc with hc | hc
        · rw [hc]; exact hpc1 a (by simp)
        · exact hpc1t c (mem_subScan ok2.hsub (some a) t c hc)
      obtain ⟨seg1, hseg1, hseg1ne, hlast1, hseg1w, hrB1⟩ :=
        ok1.shape prev _ x1 rest1 hpcaZ hm1
      cases seg1 with
      | nil => exact hseg1ne rfl
      | cons s0 seg1' =>
        rw [List.cons_append] at hseg1
        have hs0 : a = s0 := (List.cons.injEq _ _ _ _ ▸ hseg1).1
        have hZdec : subScan M2 hM2 (some a) t = seg1' ++ rest1 :=
          (List.cons.injEq _ _ _ _ ▸ hseg1).2
        have haw : isWord a = true := by
          rw [hs0]; exact hseg1w s0 (by simp)
        obtain ⟨t', ht', hrest1⟩ := subScan_word_decomp ok2.block seg1' a t rest1
          haw (fun c hc => hseg1w c (by simp [hc])) hZdec
        have hctx : lastCtx (some a) seg1' = some x1 := by
          rw [lastCtx_getLast, hs0]
          exact hlast1
        rw [hctx] at hrest1
        have hx1w : isWord x1 = true := hseg1w x1 (mem_of_getLast?' hlast1)
        have hrBt' : rightB t' = true := by
          apply subScan_rightB ok2.block hx1w t'
          rw [← hrest1]
          exact hrB1
        have hfire : M1 prev ((s0 :: seg1') ++ t') = some (x1, t') := by
          apply ok1.htrans prev (s0 :: seg1') rest1 t' x1 ?_ hrBt'
          rw [List.cons_append, ← hseg1, hm1]
        rw [← hs0] at hfire
        rw [List.cons_append, ← ht'] at hfire
        rw [NoHit_here hnh] at hfire
        exact absurd hfire (by simp)

/-! ### The year matcher satisfies the bundle -/

theorem yearFire_inv {prev : Option Char} {l : List Char} {x : Char}
    {rest : List Char} (h : yearFire prev l = some (x, rest)) :
    ∃ a b c d, l = a :: b :: c :: d :: rest ∧ x = d ∧
      leftBdry prev = true ∧ isYear4 a b c d = true ∧ rightB rest = true := by
  match l with
  | [] => simp [yearFire] at h
  | [a] => simp [yearFire] at h
  | [a, b] => simp [yearFire] at h
  | [a, b, c] => simp [yearFire] at h
  | a :: b :: c :: d :: t =>
    simp only [yearFire] at h
    split at h
    · rename_i hc
      simp only [Bool.and_eq_true] at hc
      simp only [Option.some.injEq, Prod.mk.injEq] at h
      exact ⟨a, b, c, d, by rw [h.2], h.1.symm, hc.1.1, hc.1.2, by
        rw [← h.2]; exact hc.2⟩
    · simp at h

theorem isYear4_digits {a b c d : Char} (h : isYear4 a b c d = true) :
    isWord a = true ∧ isWord b = true ∧ isWord c = true ∧ isWord d = true := by
  simp only [isYear4, Bool.and_eq_true, Bool.or_eq_true, decide_eq_true_eq] at h
  obtain ⟨⟨hab, hc⟩, hd⟩ := h
  refine ⟨?_, ?_, word_of_digit hc, word_of_digit hd⟩
  · rcases hab with ⟨ha, _⟩ | ⟨ha, _⟩ <;> subst ha <;> decide
  · rcases hab with ⟨_, hb⟩ | ⟨_, hb⟩ <;> subst hb <;> decide

theorem yearFire_ok : MatcherOK yearFire (fun _ => true) := by
  constructor
  · intro prev
    simp [yearFire]
  · intro prev l h
    have hb : leftBdry prev = false := by
      simp [leftBdry, h]
    rcases l with _ | ⟨a, _ | ⟨b, _ | ⟨c, _ | ⟨d, t⟩⟩⟩⟩ <;> simp [yearFire, hb]
  · intro p q l hpq
    rcases l with _ | ⟨a, _ | ⟨b, _ | ⟨c, _ | ⟨d, t⟩⟩⟩⟩ <;> simp [yearFire, hpq]
  · intro prev l x rest h
    obtain ⟨a, b, c, d, hl, _, _, _, _⟩ := yearFire_inv h
    exact ⟨[a, b, c, d], by rw [hl]; rfl⟩
  · intro prev w x rest _ h
    obtain ⟨a, b, c, d, hl, hx, _, hy, hrB⟩ := yearFire_inv h
    refine ⟨[a, b, c, d], by rw [hl]; rfl, by simp, by simp [hx], ?_, hrB⟩
    obtain ⟨h1, h2, h3, h4⟩ := isYear4_digits hy
    intro e he
    simp only [List.mem_cons, List.not_mem_nil, or_false] at he
    rcases he with rfl | rfl | rfl | rfl
    exacts [h1, h2, h3, h4]
  · intro prev seg w w' x h hrB
    obtain ⟨a, b, c, d, hl, hx, hbd, hy, _⟩ := yearFire_inv h
    have hlen : seg.length = 4 := by
      have := congrArg List.length hl
      simp only [List.length_append, List.length_cons] at this
      omega
    have hseg : seg = [a, b, c, d] := by
      have h4 : seg ++ w = [a, b, c, d] ++ w := by
        rw [hl]; rfl
      exact (List.append_inj h4 (by simp [hlen])).1
    rw [hseg]
    simp only [List.cons_append, List.nil_append]
    simp only [yearFire, hbd, hy, hrB]
    simp [hx]

/-! ### The tag matcher satisfies the bundle -/

theorem tryTag_inv {alt l : List Char} {x : Char} {rest : List Char}
    (h : tryTag alt l = some (x, rest)) :
    rest = l.drop alt.length ∧ (l.take alt.length).length = alt.length ∧
    pyLower (l.take alt.length) = alt ∧ rightB rest = true ∧
    (l.take alt.length).getLast? = some x := by
  unfold tryTag at h
  split at h
  · rename_i hc
    simp only [Bool.and_eq_true, beq_iff_eq] at hc
    cases hg : (l.take alt.length).getLast? with
    | none => rw [hg] at h; simp at h
    | some y =>
      rw [hg] at h
      simp only [Option.some.injEq, Prod.mk.injEq] at h
      obtain ⟨hxy, hrest⟩ := h
      refine ⟨hrest.symm, hc.1.1, hc.1.2, ?_, by rw [hxy]⟩
      rw [← hrest]; exact hc.2
  · simp at h

theorem firstTag_inv : ∀ (alts0 : List (List Char)) (l : List Char) (x : Char)
    (rest : List Char), firstTag alts0 l = some (x, rest) →
    ∃ alt ∈ alts0, tryTag alt l = some (x, rest) := by
  intro alts0
  induction alts0 with
  | nil => intro l x rest h; simp [firstTag] at h
  | cons alt alts' ih =>
    intro l x rest h
    unfold firstTag at h
    cases ht : tryTag alt l with
    | some r =>
      rw [ht] at h
      simp only [Option.some.injEq] at h
      exact ⟨alt, by simp, by rw [ht, h]⟩
    | none =>
      rw [ht] at h
      obtain ⟨a, ha, hta⟩ := ih l x rest h
      exact ⟨a, by simp [ha], hta⟩

theorem tagAlts_ne_nil : ∀ alt ∈ tagAlts, alt ≠ ([] : List Char) := by decide

theorem tagAlts_word : ∀ alt ∈ tagAlts,
    alt = "h.264".toList ∨ ∀ c ∈ alt, isWord c = true := by decide

theorem tagAlts_noext : ∀ e ∈ tagAlts, ∀ f ∈ tagAlts,
    e.take f.length = f → e.length = f.length := by decide

/-- A successful alternation at a position whose remainder is exactly `w`
determines the consumed segment: it lowercases to the winning alternative
and carries the returned context character as its last character. -/
theorem firstTag_fired_info {alts0 : List (List Char)} {seg w : List Char}
    {x : Char} (h : firstTag alts0 (seg ++ w) = some (x, w)) :
    ∃ f ∈ alts0, pyLower seg = f ∧ seg.getLast? = some x ∧
      rightB w = true ∧ seg.length = f.length := by
  obtain ⟨alt, halt, ht⟩ := firstTag_inv alts0 (seg ++ w) x w h
  obtain ⟨hrest, hlen, hlow, hrB, hlast⟩ := tryTag_inv ht
  have hsplit := List.take_append_drop alt.length (seg ++ w)
  rw [← hrest] at hsplit
  have hlens : ((seg ++ w).take alt.length).length = seg.length := by
    have := congrArg List.length hsplit
    simp only [List.length_append] at this
    omega
  obtain ⟨hseg, _⟩ := List.append_inj hsplit hlens
  rw [hseg] at hlow hlast hlen
  exact ⟨alt, halt, hlow, hlast, hrB, by omega⟩

theorem firstTag_trans : ∀ (alts0 : List (List Char)),
    (∀ a ∈ alts0, a ∈ tagAlts) →
    ∀ (seg w w' : List Char) (x : Char),
    firstTag alts0 (seg ++ w) = some (x, w) → rightB w' = true →
    firstTag alts0 (seg ++ w') = some (x, w') := by
  intro alts0
  induction alts0 with
  | nil => intro _ seg w w' x h _; simp [firstTag] at h
  | cons alt alts' ih =>
    intro hsub seg w w' x h hrB'
    unfold firstTag at h
    cases ht : tryTag alt (seg ++ w) with
    | some r =>
      rw [ht] at h
      simp only [Option.some.injEq] at h
      subst h
      obtain ⟨hrest, hlen, hlow, hrBw, hlast⟩ := tryTag_inv ht
      have hsplit := List.take_append_drop alt.length (seg ++ w)
      rw [← hrest] at hsplit
      have hlens : ((seg ++ w).take alt.length).length = seg.length := by
        have := congrArg List.length hsplit
        simp only [List.length_append] at this
        omega
      obtain ⟨hseg, _⟩ := List.append_inj hsplit hlens
      rw [hseg] at hlow hlast hlen
      have hsl : seg.length = alt.length := hlen
      have htk : (seg ++ w').take alt.length = seg := by
        rw [← hsl]; exact List.take_left seg w'
      have hdr : (seg ++ w').drop alt.length = w' := by
        rw [← hsl]; exact List.drop_left seg w'
      have hfire : tryTag alt (seg ++ w') = some (x, w') := by
        unfold tryTag
        rw [htk, hdr, hlast]
        rw [if_pos (by simp [hsl, hlow, hrB'])]
      unfold firstTag
      rw [hfire]
    | none =>
      rw [ht] at h
      obtain ⟨f, hf, hlowf, hlastf, hrBw, hlenf⟩ := firstTag_fired_info h
      have hfT : f ∈ tagAlts := hsub f (by simp [hf])
      have htw' : tryTag alt (seg ++ w') = none := by
        cases htt : tryTag alt (seg ++ w') with
        | none => rfl
        | some r' =>
          exfalso
          obtain ⟨x', rest'⟩ := r'
          obtain ⟨_, hlen', hlow', _, _⟩ := tryTag_inv htt
          have haT : alt ∈ tagAlts := hsub alt (by simp)
          by_cases hle : alt.length ≤ seg.length
          · have htk : (seg ++ w').take alt.length = seg.take alt.length :=
              List.take_append_of_le_length hle
            rw [htk] at hlow'
            have hfa : f.take alt.length = alt := by
              rw [← hlowf]
              unfold pyLower
              rw [← List.map_take]
              exact hlow'
            have hflen : f.length = alt.length :=
              tagAlts_noext f hfT alt haT hfa
            have halt_f : alt = f := by
              rw [← hfa, ← hflen, List.take_length f]
            have hslf : seg.length = alt.length := by omega
            have hfire : tryTag alt (seg ++ w) = some (x, w) := by
              unfold tryTag
              have htk2 : (seg ++ w).take alt.length = seg := by
                rw [← hslf]; exact List.take_left seg w
              have hdr2 : (seg ++ w).drop alt.length = w := by
                rw [← hslf]; exact List.drop_left seg w
              rw [htk2, hdr2, hlastf]
              rw [if_pos (by simp [hslf, halt_f, hlowf, hrBw])]
            rw [hfire] at ht
            exact absurd ht (by simp)
          · push_neg at hle
            have hkey : alt.length = seg.length + (alt.length - seg.length) := by
              omega
            have htk : (seg ++ w').take alt.length =
                seg ++ w'.take (alt.length - seg.length) := by
              conv_lhs => rw [hkey]
              exact List.take_append (alt.length - seg.length)
            rw [htk] at hlow' hlen'
            unfold pyLower at hlow'
            rw [List.map_append] at hlow'
            have halt2 : alt = f ++ (w'.take (alt.length - seg.length)).map
                pyLowerChar := by
              unfold pyLower at hlowf
              rw [← hlowf]
              exact hlow'.symm
            have hfl : alt.take f.length = f := by
              rw [halt2]
              exact List.take_left f _
            have := tagAlts_noext alt haT f hfT hfl
            simp only [List.length_append, List.length_map] at hlen'
            omega
      unfold firstTag
      rw [htw']
      exact ih (fun a ha => hsub a (by simp [ha])) seg w w' x h hrB'

theorem tagFire_ok : MatcherOK tagFire (fun c => !(c = '.')) := by
  constructor
  · intro prev
    unfold tagFire
    split
    · exact (by decide : firstTag tagAlts [] = none)
    · rfl
  · intro prev l h
    unfold tagFire
    rw [if_neg]
    simp [leftBdry, h]
  · intro p q l hpq
    unfold tagFire
    rw [hpq]
  · intro prev l x rest h
    unfold tagFire at h
    split at h
    · obtain ⟨alt, _, ht⟩ := firstTag_inv tagAlts l x rest h
      obtain ⟨hrest, _, _, _, _⟩ := tryTag_inv ht
      exact ⟨l.take alt.length, by rw [hrest]; exact (List.take_append_drop _ l).symm⟩
    · simp at h
  · intro prev w x rest hpc h
    unfold tagFire at h
    split at h
    · obtain ⟨alt, haT, ht⟩ := firstTag_inv tagAlts w x rest h
      obtain ⟨hrest, hlen, hlow, hrB, hlast⟩ := tryTag_inv ht
      refine ⟨w.take alt.length,
        by rw [hrest]; exact (List.take_append_drop _ w).symm, ?_, hlast, ?_, hrB⟩
      · intro hnil
        rw [hnil] at hlen
        exact tagAlts_ne_nil alt haT (List.length_eq_zero.mp hlen.symm)
      · intro c hc
        have hcl : c ∈ w := List.take_subset _ _ hc
        have hmem : pyLowerChar c ∈ alt := by
          rw [← hlow]
          exact List.mem_map_of_mem pyLowerChar hc
        rcases tagAlts_word alt haT with hdot | hword
        · subst hdot
          have hfact : ∀ d ∈ ("h.264".toList : List Char),
              d = '.' ∨ isWord d = true := by decide
          rcases hfact (pyLowerChar c) hmem with hd | hw
          · exfalso
            have := hpc c hcl
            rw [pyLowerChar_dot hd] at this
            exact absurd this (by decide)
          · rw [← isWord_pyLowerChar c]
            exact hw
        · rw [← isWord_pyLowerChar c]
          exact hword (pyLowerChar c) hmem
    · simp at h
  · intro prev seg w w' x h hrB'
    unfold tagFire at h ⊢
    split at h
    · rename_i hbd
      rw [if_pos hbd]
      exact firstTag_trans tagAlts (fun a ha => ha) seg w w' x h hrB'
    · simp at h

/-! ### Whitespace collapsing preserves the no-match predicates -/

theorem wsCollapse_nil : wsCollapse [] = [] := by rw [wsCollapse]

theorem wsCollapse_space {c : Char} (h : pyIsSpace c = true) (t : List Char) :
    wsCollapse (c :: t) = ' ' :: wsCollapse (t.dropWhile pyIsSpace) := by
  rw [wsCollapse, if_pos h]

theorem wsCollapse_nospace {c : Char} (h : pyIsSpace c = false) (t : List Char) :
    wsCollapse (c :: t) = c :: wsCollapse t := by
  rw [wsCollapse, if_neg (by simp [h])]

theorem wsCollapse_induct (motive : List Char → Prop)
    (h0 : motive [])
    (h1 : ∀ c t, pyIsSpace c = true → motive (t.dropWhile pyIsSpace) →
      motive (c :: t))
    (h2 : ∀ c t, pyIsSpace c = false → motive t → motive (c :: t)) :
    ∀ l, motive l := by
  intro l
  generalize hn : l.length = n
  induction n using Nat.strong_induction_on generalizing l with
  | _ n ih =>
    cases l with
    | nil => exact h0
    | cons c t =>
      cases hc : pyIsSpace c with
      | true =>
        refine h1 c t hc (ih (t.dropWhile pyIsSpace).length ?_ _ rfl)
        rw [← hn]
        simp only [List.length_cons]
        exact Nat.lt_succ_of_le (length_dropWhile_le' _ _)
      | false =>
        refine h2 c t hc (ih t.length ?_ _ rfl)
        rw [← hn]
        simp

theorem head_dropWhile_false {p : Char → Bool} {l : List Char} {c : Char}
    {t : List Char} (h : l.dropWhile p = c :: t) : p c = false := by
  induction l with
  | nil => simp [List.dropWhile] at h
  | cons a l' ih =>
    by_cases ha : p a = true
    · rw [List.dropWhile_cons, if_pos ha] at h
      exact ih h
    · rw [List.dropWhile_cons, if_neg ha] at h
      have : a = c := (List.cons.injEq _ _ _ _ ▸ h).1
      rw [← this]
      simpa using ha

theorem mem_wsCollapse : ∀ (l : List Char) (c : Char),
    c ∈ wsCollapse l → c ∈ l ∨ c = ' ' := by
  refine wsCollapse_induct (fun l => ∀ c, c ∈ wsCollapse l → c ∈ l ∨ c = ' ')
    ?_ ?_ ?_
  · intro c hc; rw [wsCollapse_nil] at hc; simp at hc
  · intro c t hc ih e he
    rw [wsCollapse_space hc] at he
    rcases List.mem_cons.mp he with he | he
    · exact Or.inr he
    · rcases ih e he with he | he
      · exact Or.inl (List.mem_cons_of_mem _ (mem_of_mem_dropWhile he))
      · exact Or.inr he
  · intro c t hc ih e he
    rw [wsCollapse_nospace hc] at he
    rcases List.mem_cons.mp he with he | he
    · exact Or.inl (by simp [he])
    · rcases ih e he with he | he
      · exact Or.inl (List.mem_cons_of_mem _ he)
      · exact Or.inr he

theorem wsCollapse_word_decomp :
    ∀ (p : List Char) (t v : List Char), (∀ c ∈ p, isWord c = true) →
    wsCollapse t = p ++ v → ∃ t', t = p ++ t' ∧ v = wsCollapse t' := by
  intro p
  induction p with
  | nil =>
    intro t v _ he
    rw [List.nil_append] at he
    exact ⟨t, by simp, he.symm⟩
  | cons q p' ih =>
    intro t v hp he
    cases t with
    | nil =>
      rw [wsCollapse_nil] at he
      exact absurd he.symm (by simp)
    | cons a t1 =>
      by_cases ha : pyIsSpace a = true
      · rw [wsCollapse_space ha, List.cons_append] at he
        have hq : ' ' = q := (List.cons.injEq _ _ _ _ ▸ he).1
        have := hp q (by simp)
        rw [← hq] at this
        exact absurd this (by decide)
      · rw [wsCollapse_nospace (by simpa using ha), List.cons_append] at he
        have hq : a = q := (List.cons.injEq _ _ _ _ ▸ he).1
        have he2 : wsCollapse t1 = p' ++ v := (List.cons.injEq _ _ _ _ ▸ he).2
        obtain ⟨t', ht, hv⟩ := ih t1 v (fun c hc => hp c (by simp [hc])) he2
        exact ⟨t', by rw [ht, hq, List.cons_append], hv⟩

theorem wsCollapse_rightB {t : List Char}
    (h : rightB (wsCollapse t) = true) : rightB t = true := by
  cases t with
  | nil => rfl
  | cons e t2 =>
    by_cases he : pyIsSpace e = true
    · simp [rightB, not_word_of_space he]
    · rw [wsCollapse_nospace (by simpa using he)] at h
      exact h

theorem NoHit_ctx {M : Option Char → List Char → Option (Char × List Char)}
    (hIrr : ∀ p q l, leftBdry p = leftBdry q → M p l = M q l)
    {p q : Option Char} {l : List Char} (hpq : leftBdry p = leftBdry q)
    (h : NoHit M p l) : NoHit M q l := by
  intro u w hw
  cases u with
  | nil =>
    rw [lastCtx_nil, ← hIrr p q w hpq, ← lastCtx_nil p]
    exact h [] w hw
  | cons u0 u' =>
    rw [lastCtx_cons]
    have := h (u0 :: u') w hw
    rwa [lastCtx_cons] at this

theorem wsCollapse_preserves_noHit
    {M : Option Char → List Char → Option (Char × List Char)}
    {pc : Char → Bool} (ok : MatcherOK M pc) (hpcsp : pc ' ' = true) :
    ∀ (l : List Char) (prev : Option Char), (∀ c ∈ l, pc c = true) →
    NoHit M prev l → NoHit M prev (wsCollapse l) := by
  refine wsCollapse_induct (fun l => ∀ prev, (∀ c ∈ l, pc c = true) →
    NoHit M prev l → NoHit M prev (wsCollapse l)) ?_ ?_ ?_
  · intro prev _ _ u w hw
    rw [wsCollapse_nil] at hw
    obtain ⟨_, hwnil⟩ := List.append_eq_nil.mp hw.symm
    rw [hwnil]
    exact ok.hnil _
  · -- a whitespace run is replaced by a single space
    intro c t hc ih prev hpc hnh
    rw [wsCollapse_space hc]
    have hpcd : ∀ e ∈ t.dropWhile pyIsSpace, pc e = true :=
      fun e he => hpc e (List.mem_cons_of_mem _ (mem_of_mem_dropWhile he))
    -- the no-hit hypothesis at the start of the whitespace run's end
    have hsplit : c :: t = (c :: t.takeWhile pyIsSpace) ++ t.dropWhile pyIsSpace := by
      rw [List.cons_append, List.takeWhile_append_dropWhile]
    have hnh2 := NoHit_suffix (s := c :: t.takeWhile pyIsSpace)
      (by rwa [← hsplit])
    have hctxsp : leftBdry (lastCtx prev (c :: t.takeWhile pyIsSpace)) = true := by
      rw [lastCtx_cons, lastCtx_getLast]
      cases hg : (c :: t.takeWhile pyIsSpace).getLast? with
      | none => simp at hg
      | some y =>
        have hy : y ∈ c :: t.takeWhile pyIsSpace := mem_of_getLast?' hg
        have hysp : pyIsSpace y = true := by
          rcases List.mem_cons.mp hy with hy | hy
          · rw [hy]; exact hc
          · exact all_takeWhile hy
        simp [leftBdry, isWordO, not_word_of_space hysp]
    have hnh3 : NoHit M (some ' ') (t.dropWhile pyIsSpace) := by
      refine NoHit_ctx ok.ctxIrrel ?_ hnh2
      rw [hctxsp]
      decide
    have hW := ih (some ' ') hpcd hnh3
    refine NoHit_cons ?_ hW
    cases hm1 : M prev (' ' :: wsCollapse (t.dropWhile pyIsSpace)) with
    | none => rfl
    | some r =>
      exfalso
      obtain ⟨x1, rest1⟩ := r
      have hpcZ : ∀ e ∈ ' ' :: wsCollapse (t.dropWhile pyIsSpace), pc e = true := by
        intro e he
        rcases List.mem_cons.mp he with he | he
        · rw [he]; exact hpcsp
        · rcases mem_wsCollapse _ e he with he | he
          · exact hpcd e he
          · rw [he]; exact hpcsp
      obtain ⟨seg1, hseg1, hseg1ne, _, hseg1w, _⟩ :=
        ok.shape prev _ x1 rest1 hpcZ hm1
      cases seg1 with
      | nil => exact hseg1ne rfl
      | cons s0 seg1' =>
        rw [List.cons_append] at hseg1
        have hs0 : ' ' = s0 := (List.cons.injEq _ _ _ _ ▸ hseg1).1
        have := hseg1w s0 (by simp)
        rw [← hs0] at this
        exact absurd this (by decide)
  · -- a non-space character is emitted
    intro c t hc ih prev hpc hnh
    rw [wsCollapse_nospace hc]
    have hpct : ∀ e ∈ t, pc e = true := fun e he => hpc e (by simp [he])
    refine NoHit_cons ?_ (ih (some c) hpct (NoHit_shift hnh))
    cases hm1 : M prev (c :: wsCollapse t) with
    | none => rfl
    | some r =>
      exfalso
      obtain ⟨x1, rest1⟩ := r
      have hpcZ : ∀ e ∈ c :: wsCollapse t, pc e = true := by
        intro e he
        rcases List.mem_cons.mp he with he | he
        · rw [he]; exact hpc c (by simp)
        · rcases mem_wsCollapse t e he with he | he
          · exact hpct e he
          · rw [he]; exact hpcsp
      obtain ⟨seg1, hseg1, hseg1ne, hlast1, hseg1w, hrB1⟩ :=
        ok.shape prev _ x1 rest1 hpcZ hm1
      cases seg1 with
      | nil => exact hseg1ne rfl
      | cons s0 seg1' =>
        rw [List.cons_append] at hseg1
        have hs0 : c = s0 := (List.cons.injEq _ _ _ _ ▸ hseg1).1
        have hZdec : wsCollapse t = seg1' ++ rest1 :=
          (List.cons.injEq _ _ _ _ ▸ hseg1).2
        obtain ⟨t', ht', hrest1⟩ := wsCollapse_word_decomp seg1' t rest1
          (fun e he => hseg1w e (by simp [he])) hZdec
        have hrBt' : rightB t' = true := by
          apply wsCollapse_rightB
          rw [← hrest1]
          exact hrB1
        have hfire : M prev ((s0 :: seg1') ++ t') = some (x1, t') := by
          apply ok.htrans prev (s0 :: seg1') rest1 t' x1 ?_ hrBt'
          rw [List.cons_append, ← hseg1, hm1]
        rw [← hs0, List.cons_append, ← ht'] at hfire
        rw [NoHit_here hnh] at hfire
        exact absurd hfire (by simp)

/-! ### Stripping preserves the no-match predicates -/

theorem mem_pyStrip {l : List Char} {c : Char} (h : c ∈ pyStrip l) : c ∈ l := by
  unfold pyStrip at h
  rw [List.mem_reverse] at h
  have h1 := mem_of_mem_dropWhile h
  rw [List.mem_reverse] at h1
  exact mem_of_mem_dropWhile h1

theorem pyStrip_decomp (l : List Char) :
    ∃ lws rws, l = lws ++ (pyStrip l ++ rws) ∧
      (∀ c ∈ lws, pyIsSpace c = true) ∧ (∀ c ∈ rws, pyIsSpace c = true) := by
  refine ⟨l.takeWhile pyIsSpace,
    ((l.dropWhile pyIsSpace).reverse.takeWhile pyIsSpace).reverse, ?_, ?_, ?_⟩
  · have h1 := List.takeWhile_append_dropWhile (p := pyIsSpace)
      (l := (l.dropWhile pyIsSpace).reverse)
    have h2 := congrArg List.reverse h1
    simp only [List.reverse_append, List.reverse_reverse] at h2
    conv_lhs => rw [← List.takeWhile_append_dropWhile (p := pyIsSpace) (l := l)]
    congr 1
    unfold pyStrip
    exact h2.symm
  · intro c hc; exact all_takeWhile hc
  · intro c hc
    rw [List.mem_reverse] at hc
    exact all_takeWhile hc

theorem getLast?_ne_none {u : List Char} (h : u ≠ []) :
    ∃ y, u.getLast? = some y := by
  induction u with
  | nil => exact absurd rfl h
  | cons a t ih =>
    cases t with
    | nil => exact ⟨a, rfl⟩
    | cons b t' =>
      obtain ⟨y, hy⟩ := ih (by simp)
      exact ⟨y, by rw [List.getLast?_cons_cons]; exact hy⟩

theorem lastCtx_irrel {u : List Char} (h : u ≠ []) (p q : Option Char) :
    lastCtx p u = lastCtx q u := by
  obtain ⟨y, hy⟩ := getLast?_ne_none h
  rw [lastCtx_of_getLast p hy, lastCtx_of_getLast q hy]

theorem pyStrip_preserves_noHit
    {M : Option Char → List Char → Option (Char × List Char)}
    {pc : Char → Bool} (ok : MatcherOK M pc)
    (l : List Char) (hpc : ∀ c ∈ l, pc c = true)
    (hnh : NoHit M none l) : NoHit M none (pyStrip l) := by
  obtain ⟨lws, rws, hdec, hlws, hrws⟩ := pyStrip_decomp l
  intro u w hw
  cases hm : M (lastCtx none u) w with
  | none => rfl
  | some r =>
    exfalso
    obtain ⟨x, rest⟩ := r
    have hpcw : ∀ c ∈ w, pc c = true := by
      intro c hc
      apply hpc c
      rw [hdec, hw]
      simp [hc]
    obtain ⟨seg, hseg, _, _, _, hrB⟩ := ok.shape _ w x rest hpcw hm
    have hrB2 : rightB (rest ++ rws) = true := by
      cases rest with
      | nil =>
        cases hrw : rws with
        | nil => rfl
        | cons r0 r1 =>
          have : pyIsSpace r0 = true := hrws r0 (by simp [hrw])
          simp [rightB, not_word_of_space this]
      | cons r0 r1 =>
        simpa [rightB] using hrB
    have hfire : M (lastCtx none u) (w ++ rws) = some (x, rest ++ rws) := by
      have := ok.htrans _ seg rest (rest ++ rws) x
        (by rw [← hseg]; exact hm) hrB2
      rw [hseg, List.append_assoc]
      exact this
    have hctx : M (lastCtx none (lws ++ u)) (w ++ rws) =
        M (lastCtx none u) (w ++ rws) := by
      cases u with
      | nil =>
        rw [List.append_nil, lastCtx_nil]
        apply ok.ctxIrrel
        cases lws with
        | nil => rw [lastCtx_nil]
        | cons w0 w1 =>
          obtain ⟨y, hy⟩ := getLast?_ne_none (u := w0 :: w1) (by simp)
          rw [lastCtx_of_getLast none hy]
          have hysp := hlws y (mem_of_getLast?' hy)
          simp [leftBdry, isWordO, not_word_of_space hysp]
      | cons u0 u' =>
        rw [lastCtx_append, lastCtx_irrel (u := u0 :: u') (by simp)
          (lastCtx none lws) none]
    have hnone := hnh (lws ++ u) (w ++ rws)
      (by rw [hdec, hw]; simp [List.append_assoc])
    rw [hctx, hfire] at hnone
    exact absurd hnone (by simp)

/-! ### Normal form of the whitespace passes -/

/-- Output shape of `re.sub(r'\s+', ' ', _)`: every whitespace character is
a plain space and no two whitespace characters are adjacent. -/
def Collapsed (l : List Char) : Prop :=
  (∀ c ∈ l, pyIsSpace c = true → c = ' ') ∧
  l.Chain' (fun a b => ¬(pyIsSpace a = true ∧ pyIsSpace b = true))

theorem collapsed_wsCollapse : ∀ l : List Char, Collapsed (wsCollapse l) := by
  refine wsCollapse_induct (fun l => Collapsed (wsCollapse l)) ?_ ?_ ?_
  · show Collapsed (wsCollapse [])
    rw [wsCollapse_nil]; exact ⟨by simp, by simp⟩
  · intro c t hc ih
    rw [wsCollapse_space hc]
    obtain ⟨ihe, ihc⟩ := ih
    refine ⟨?_, ?_⟩
    · intro e he hesp
      rcases List.mem_cons.mp he with he | he
      · exact he
      · exact ihe e he hesp
    · rw [List.chain'_cons']
      refine ⟨?_, ihc⟩
      intro b hb
      cases hdw : t.dropWhile pyIsSpace with
      | nil => rw [hdw, wsCollapse_nil] at hb; simp at hb
      | cons f t4 =>
        have hf : pyIsSpace f = false := head_dropWhile_false hdw
        rw [hdw, wsCollapse_nospace hf] at hb
        simp only [List.head?_cons, Option.mem_def, Option.some.injEq] at hb
        rw [← hb]
        intro hcon
        rw [hf] at hcon
        exact absurd hcon.2 (by simp)
  · intro c t hc ih
    rw [wsCollapse_nospace hc]
    obtain ⟨ihe, ihc⟩ := ih
    refine ⟨?_, ?_⟩
    · intro e he hesp
      rcases List.mem_cons.mp he with he | he
      · exfalso; rw [he] at hesp; rw [hesp] at hc; exact absurd hc (by simp)
      · exact ihe e he hesp
    · rw [List.chain'_cons']
      refine ⟨?_, ihc⟩
      intro b _
      intro hcon
      rw [hc] at hcon
      exact absurd hcon.1 (by simp)

theorem dropWhile_eq_self_of_head {p : Char → Bool} {l : List Char}
    (h : ∀ x, l.head? = some x → p x = false) : l.dropWhile p = l := by
  cases l with
  | nil => rfl
  | cons c t =>
    rw [List.dropWhile_cons, if_neg]
    rw [h c rfl]
    simp

theorem collapsed_tail {c : Char} {t : List Char}
    (h : Collapsed (c :: t)) : Collapsed t := by
  obtain ⟨he, hc⟩ := h
  exact ⟨fun e hme => he e (by simp [hme]),
    (List.chain'_cons'.mp hc).2⟩

theorem wsCollapse_id_of_collapsed : ∀ l : List Char, Collapsed l →
    wsCollapse l = l := by
  intro l
  induction l with
  | nil => intro _; exact wsCollapse_nil
  | cons c t ih =>
    intro hcol
    by_cases hc : pyIsSpace c = true
    · have hc' : c = ' ' := hcol.1 c (by simp) hc
      rw [wsCollapse_space hc]
      have hdw : t.dropWhile pyIsSpace = t := by
        apply dropWhile_eq_self_of_head
        intro x hx
        have := (List.chain'_cons'.mp hcol.2).1 x hx
        cases hxs : pyIsSpace x with
        | false => rfl
        | true => exact absurd ⟨hc, hxs⟩ this
      rw [hdw, ih (collapsed_tail hcol), hc']
    · rw [wsCollapse_nospace (by simpa using hc), ih (collapsed_tail hcol)]

theorem collapsed_dropWhile {p : Char → Bool} {l : List Char}
    (h : Collapsed l) : Collapsed (l.dropWhile p) := by
  induction l with
  | nil => exact h
  | cons c t ih =>
    by_cases hc : p c = true
    · rw [List.dropWhile_cons, if_pos hc]
      exact ih (collapsed_tail h)
    · rw [List.dropWhile_cons, if_neg hc]
      exact h

theorem collapsed_reverse {l : List Char} (h : Collapsed l) :
    Collapsed l.reverse := by
  obtain ⟨he, hc⟩ := h
  refine ⟨fun c hcm => he c (List.mem_reverse.mp hcm), ?_⟩
  rw [List.chain'_reverse]
  exact hc.imp (fun a b hab hcon => hab ⟨hcon.2, hcon.1⟩)

theorem collapsed_pyStrip {l : List Char} (h : Collapsed l) :
    Collapsed (pyStrip l) := by
  unfold pyStrip
  exact collapsed_reverse (collapsed_dropWhile
    (collapsed_reverse (collapsed_dropWhile h)))

theorem getLast?_dropWhile {p : Char → Bool} {l : List Char}
    (h : l.dropWhile p ≠ []) : (l.dropWhile p).getLast? = l.getLast? := by
  induction l with
  | nil => exact absurd rfl h
  | cons c t ih =>
    by_cases hc : p c = true
    · rw [List.dropWhile_cons, if_pos hc] at h ⊢
      cases ht : t with
      | nil => rw [ht] at h; simp [List.dropWhile] at h
      | cons d t2 =>
        rw [← ht]
        rw [ih h]
        rw [ht, List.getLast?_cons_cons]
    · rw [List.dropWhile_cons, if_neg hc]

theorem pyStrip_idem (l : List Char) : pyStrip (pyStrip l) = pyStrip l := by
  have claim2 : (pyStrip l).reverse.dropWhile pyIsSpace = (pyStrip l).reverse := by
    unfold pyStrip
    rw [List.reverse_reverse]
    exact dropWhile_self_idem _ _
  have claim1 : (pyStrip l).dropWhile pyIsSpace = pyStrip l := by
    apply dropWhile_eq_self_of_head
    intro x hx
    unfold pyStrip at hx
    rw [List.head?_reverse] at hx
    -- x is the last character of the inner dropWhile, i.e. the head of
    -- the first dropWhile's result
    have hBne : (l.dropWhile pyIsSpace).reverse.dropWhile pyIsSpace ≠ [] := by
      intro hnil
      rw [hnil] at hx
      simp at hx
    rw [getLast?_dropWhile hBne, List.getLast?_reverse] at hx
    cases hA : l.dropWhile pyIsSpace with
    | nil => rw [hA] at hx; simp at hx
    | cons a t =>
      rw [hA] at hx
      simp only [List.head?_cons, Option.some.injEq] at hx
      rw [← hx]
      exact head_dropWhile_false hA
  conv_lhs => rw [pyStrip]
  rw [claim1, claim2, List.reverse_reverse]

/-! ### Claim C8: idempotence of the title cleaning -/

theorem splitext_nodot {p : List Char} (h : '.' ∉ p) :
    splitextList p = (p, []) := by
  simp only [splitextList]
  cases hdw : p.reverse.dropWhile (fun c => !(c = '.' || c = '/')) with
  | nil => rfl
  | cons c rest1 =>
    dsimp only
    have hc : c = '.' ∨ c = '/' := by
      have h0 := head_dropWhile_false hdw
      simp at h0
      exact (em (c = '.')).imp id h0
    have hcp : c ∈ p := by
      rw [← List.mem_reverse]
      exact mem_of_mem_dropWhile (by rw [hdw]; simp)
    rcases hc with hc | hc
    · exact absurd (hc ▸ hcp) h
    · rw [if_neg (by rw [hc]; decide)]

theorem replDots_no_dot (l : List Char) :
    '.' ∉ replDots l ∧ '_' ∉ replDots l := by
  constructor <;> intro hmem <;>
    (unfold replDots at hmem
     rw [List.mem_map] at hmem
     obtain ⟨c, _, hc⟩ := hmem
     by_cases h1 : c = '.' <;> by_cases h2 : c = '_' <;>
       simp [h1, h2] at hc <;> simp_all)

theorem replDots_id {l : List Char} (hd : '.' ∉ l) (hu : '_' ∉ l) :
    replDots l = l := by
  induction l with
  | nil => rfl
  | cons c t ih =>
    have hcd : c ≠ '.' := fun h => hd (by simp [h])
    have hcu : c ≠ '_' := fun h => hu (by simp [h])
    unfold replDots
    simp only [List.map_cons, if_neg hcd, if_neg hcu, List.cons.injEq, true_and]
    exact ih (fun h => hd (by simp [h])) (fun h => hu (by simp [h]))

/-- Claim C8: `clean_filename` is idempotent.  After one pass the string
contains no dot or underscore, its whitespace is collapsed and stripped, and
the removal scans left no year or tag match at any position — matches
survive neither the scans themselves (their removals glue non-word
neighbours together) nor the whitespace passes — so the second pass
reproduces the string unchanged. -/
theorem clean_filename_idempotent (x : List Char) :
    clean_filename (clean_filename x) = clean_filename x := by
  unfold clean_filename
  generalize hw : replDots (splitextList x).1 = w
  generalize hy : pyStrip (wsCollapse (tagSub none (yearSub none w))) = y
  have hwd : '.' ∉ w := by rw [← hw]; exact (replDots_no_dot _).1
  have hwu : '_' ∉ w := by rw [← hw]; exact (replDots_no_dot _).2
  have hz1 : ∀ c ∈ yearSub none w, c ∈ w := by
    unfold yearSub
    exact fun c hc => mem_subScan yearFire_ok.hsub none w c hc
  have hz2 : ∀ c ∈ tagSub none (yearSub none w), c ∈ yearSub none w := by
    unfold tagSub
    exact fun c hc => mem_subScan tagFire_ok.hsub none _ c hc
  have hym : ∀ c ∈ y, c ∈ tagSub none (yearSub none w) ∨ c = ' ' := by
    rw [← hy]
    exact fun c hc => mem_wsCollapse _ c (mem_pyStrip hc)
  have hyd : '.' ∉ y := by
    intro hc
    rcases hym '.' hc with h | h
    · exact hwd (hz1 '.' (hz2 '.' h))
    · exact absurd h (by decide)
  have hyu : '_' ∉ y := by
    intro hc
    rcases hym '_' hc with h | h
    · exact hwu (hz1 '_' (hz2 '_' h))
    · exact absurd h (by decide)
  have hdz1 : ∀ c ∈ yearSub none w, (!(c = '.')) = true := by
    intro c hc
    simp only [Bool.not_eq_true', decide_eq_false_iff_not]
    intro he
    exact hwd (he ▸ hz1 c hc)
  have hdz2 : ∀ c ∈ tagSub none (yearSub none w), (!(c = '.')) = true :=
    fun c hc => hdz1 c (hz2 c hc)
  have hdz3 : ∀ c ∈ wsCollapse (tagSub none (yearSub none w)),
      (!(c = '.')) = true := by
    intro c hc
    rcases mem_wsCollapse _ c hc with h | h
    · exact hdz2 c h
    · rw [h]; decide
  have hY1 : NoHit yearFire none (yearSub none w) := by
    unfold yearSub
    exact subScan_noHit yearFire_ok none w (fun c _ => rfl)
  have hY2 : NoHit yearFire none (tagSub none (yearSub none w)) := by
    unfold tagSub
    exact subScan_preserves_noHit yearFire_ok tagFire_ok none _
      (fun c _ => rfl) hdz1 hY1
  have hY3 : NoHit yearFire none (wsCollapse (tagSub none (yearSub none w))) :=
    wsCollapse_preserves_noHit yearFire_ok rfl _ none (fun c _ => rfl) hY2
  have hY4 : NoHit yearFire none y := by
    rw [← hy]
    exact pyStrip_preserves_noHit yearFire_ok _ (fun c _ => rfl) hY3
  have hT1 : NoHit tagFire none (tagSub none (yearSub none w)) := by
    unfold tagSub
    exact subScan_noHit tagFire_ok none _ hdz1
  have hT2 : NoHit tagFire none (wsCollapse (tagSub none (yearSub none w))) :=
    wsCollapse_preserves_noHit tagFire_ok (by decide) _ none hdz2 hT1
  have hT3 : NoHit tagFire none y := by
    rw [← hy]
    exact pyStrip_preserves_noHit tagFire_ok _ hdz3 hT2
  have hcol : Collapsed y := by
    rw [← hy]
    exact collapsed_pyStrip (collapsed_wsCollapse _)
  have hstr : pyStrip y = y := by
    rw [← hy]
    exact pyStrip_idem _
  simp only [splitext_nodot hyd]
  rw [replDots_id hyd hyu]
  rw [show yearSub none y = y from by unfold yearSub; exact subScan_id none y hY4]
  rw [show tagSub none y = y from by unfold tagSub; exact subScan_id none y hT3]
  rw [wsCollapse_id_of_collapsed y hcol]
  exact hstr

end LocalFlix
